import Mathlib

/-!
Verification development for the Lite-MySQL engine (src/main.py).

The Python source is shallowly embedded:
* Python dicts are association lists preserving insertion order (CPython
  dicts are ordered); lookup takes the first occurrence, and an update
  keeps the key at its original position.
* A method that either mutates state or raises an exception is embedded as
  a function into `Except`: an `.error` value models a raised exception,
  which in the source occurs before any mutation unless stated otherwise
  (for `Table.update` the error value carries the partially-mutated rows,
  because the source mutates rows in place before the exception is raised).
* Python `float` payloads are modelled as exact rationals (`Rat`).  The
  source never performs float arithmetic; only equality, ordering and the
  JSON round trip are observable, and those agree with the rational model
  on the literals the parser can produce.
* Regex character classes such as `\d` are modelled as ASCII digits; the
  statements fed to the parser are single input lines, so the end-of-line
  subtleties of Python's `$` anchor cannot arise.
-/

/-- The `DataType` enum of src/main.py (line 8). -/
inductive DataType where
  | INTEGER
  | FLOAT
  | DATE
  | TIME
  | CHAR
  | BINARY
deriving DecidableEq, Repr

/-- The `.value` string of each enum member (src/main.py lines 9-14). -/
def DataType.value : DataType → String
  | .INTEGER => "INTEGER"
  | .FLOAT => "FLOAT"
  | .DATE => "DATE"
  | .TIME => "TIME"
  | .CHAR => "CHAR"
  | .BINARY => "BINARY"

/-- `DataType(tag)`: the enum constructor applied to a tag string, as used by
`Table.from_dict` (src/main.py line 105); `none` models the `ValueError`
raised on an unknown tag. -/
def DataType.ofString : String → Option DataType
  | "INTEGER" => some .INTEGER
  | "FLOAT" => some .FLOAT
  | "DATE" => some .DATE
  | "TIME" => some .TIME
  | "CHAR" => some .CHAR
  | "BINARY" => some .BINARY
  | _ => none

/-- The runtime values the engine stores: Python `int`, `float`, `str`,
`datetime.date`, `datetime.time` and `bytes`.  Floats are modelled as exact
rationals, bytes as lists of byte values. -/
inductive Value where
  | vint (n : Int)
  | vfloat (q : Rat)
  | vstr (s : String)
  | vdate (y m d : Nat)
  | vtime (h mi se : Nat)
  | vbytes (bs : List Nat)
deriving DecidableEq, Repr

/-- Python `==` on the stored values: numbers compare across int/float,
every other comparison is within one type, cross-type comparisons are
`False`. -/
def pyEq (a b : Value) : Bool :=
  match a, b with
  | .vint x, .vint y => x == y
  | .vint x, .vfloat q => (x : Rat) == q
  | .vfloat p, .vint y => p == (y : Rat)
  | .vfloat p, .vfloat q => p == q
  | .vstr s, .vstr t => s == t
  | .vdate y1 m1 d1, .vdate y2 m2 d2 => y1 == y2 && m1 == m2 && d1 == d2
  | .vtime h1 mi1 s1, .vtime h2 mi2 s2 => h1 == h2 && mi1 == mi2 && s1 == s2
  | .vbytes xs, .vbytes ys => xs == ys
  | _, _ => false

/-- `Table.validate_type` (src/main.py lines 79-92): the value's variant
must match the declared type exactly (`isinstance` checks, no coercion). -/
def validate_type (v : Value) (dt : DataType) : Bool :=
  match dt with
  | .INTEGER => match v with | .vint _ => true | _ => false
  | .FLOAT => match v with | .vfloat _ => true | _ => false
  | .DATE => match v with | .vdate .. => true | _ => false
  | .TIME => match v with | .vtime .. => true | _ => false
  | .CHAR => match v with | .vstr _ => true | _ => false
  | .BINARY => match v with | .vbytes _ => true | _ => false

instance {ε α : Type} [DecidableEq ε] [DecidableEq α] : DecidableEq (Except ε α) :=
  fun x y =>
    match x, y with
    | .error a, .error b => decidable_of_iff (a = b) (by simp)
    | .ok a, .ok b => decidable_of_iff (a = b) (by simp)
    | .error _, .ok _ => isFalse (by simp)
    | .ok _, .error _ => isFalse (by simp)

/-- A loop that applies `f` to each element in order, raising the first
error and collecting the results otherwise — the shape of every
`for`-with-exceptions loop in the source. -/
def mapExcept {α β ε : Type} (f : α → Except ε β) : List α → Except ε (List β)
  | [] => .ok []
  | x :: xs =>
    match f x with
    | .error e => .error e
    | .ok y =>
      match mapExcept f xs with
      | .error e => .error e
      | .ok ys => .ok (y :: ys)

/-- A loop that applies `f` to each element in order, failing as a whole on
the first failure. -/
def mapOption {α β : Type} (f : α → Option β) : List α → Option (List β)
  | [] => some []
  | x :: xs =>
    match f x with
    | none => none
    | some y =>
      match mapOption f xs with
      | none => none
      | some ys => some (y :: ys)

/-- A row: a Python dict from column name to value, in insertion order. -/
abbrev Row := List (String × Value)

/-- A schema: a Python dict from column name to `DataType`. -/
abbrev Schema := List (String × DataType)

/-- Dict lookup (`row[col]` / `row.get(col)`): first occurrence. -/
def rowGet : Row → String → Option Value
  | [], _ => none
  | (c0, v0) :: rest, c => if c0 = c then some v0 else rowGet rest c

/-- Dict lookup in a schema (`self.schema[column]`). -/
def schemaGet : Schema → String → Option DataType
  | [], _ => none
  | (c0, t0) :: rest, c => if c0 = c then some t0 else schemaGet rest c

/-- Dict assignment `row[column] = value`: replace the value at an existing
key (keeping its position) or append a new key. -/
def rowSet : Row → String → Value → Row
  | [], c, v => [(c, v)]
  | (c0, v0) :: rest, c, v =>
    if c0 = c then (c0, v) :: rest else (c0, v0) :: rowSet rest c v

/-- `set(xs) == set(ys)` on key lists (src/main.py line 28). -/
def sameKeySet (xs ys : List String) : Bool :=
  xs.all (fun k => ys.contains k) && ys.all (fun k => xs.contains k)

/-- The exceptions the engine can raise: the `ValueError` of a schema
mismatch on insert, the `TypeError` of a failed type validation (carrying
the column and its declared type, which appear in the message), a `KeyError`
on a missing dict key, and the `TypeError` CPython raises when sorting
pairwise-incomparable keys. -/
inductive PyErr where
  | schemaMismatch
  | typeMismatch (col : String) (expected : DataType)
  | keyError (col : String)
  | compareTypeError
deriving DecidableEq, Repr

/-- A table: name, schema and rows in insertion order (src/main.py 17-24). -/
structure Table where
  name : String
  schema : Schema
  rows : List Row
deriving DecidableEq, Repr

/-- The validation loop of `Table.insert` (src/main.py lines 31-34): walk the
record in insertion order, look each column up in the schema and validate the
value; the first failure raises. -/
def checkRecord (schema : Schema) : List (String × Value) → Except PyErr Unit
  | [] => .ok ()
  | (c, v) :: rest =>
    match schemaGet schema c with
    | none => .error (.keyError c)
    | some dt =>
      if validate_type v dt then checkRecord schema rest
      else .error (.typeMismatch c dt)

/-- `Table.insert` (src/main.py lines 26-36).  An `.error` models a raised
exception; both exceptions are raised before `self.rows.append`, so the
table is unchanged in that case. -/
def Table.insert (t : Table) (record : Row) : Except PyErr Table :=
  if sameKeySet (record.map Prod.fst) (t.schema.map Prod.fst) = false then
    .error .schemaMismatch
  else
    match checkRecord t.schema record with
    | .error e => .error e
    | .ok _ => .ok { t with rows := t.rows ++ [record] }

/-- `where is None or where(row)` (src/main.py lines 45 and 63). -/
def matchesWh (wh : Option (Row → Bool)) (row : Row) : Bool :=
  match wh with
  | none => true
  | some w => w row

/-- The dict comprehension of src/main.py line 46:
`\x7bcol: row[col] for col in columns\x7d`, evaluated left to right; a
missing column raises `KeyError`. -/
def projectGo (row : Row) : List String → Row → Except PyErr Row
  | [], acc => .ok acc
  | c :: cs, acc =>
    match rowGet row c with
    | some v => projectGo row cs (rowSet acc c v)
    | none => .error (.keyError c)

/-- Project one row onto the requested columns (src/main.py line 46). -/
def projectRow (cols : List String) (row : Row) : Except PyErr Row :=
  projectGo row cols []

/-- One ORDER BY entry as built by `parse_order_by` (src/main.py line 382):
a dict with a column name and a direction string (already upper-cased to
`ASC` or `DESC` by the parser). -/
structure OrderKey where
  column : String
  direction : String

/-- The comparability class of a value under Python `<`: ints and floats
are mutually comparable, every other type only with itself. -/
def Value.classIdx : Value → Nat
  | .vint _ => 0
  | .vfloat _ => 0
  | .vstr _ => 1
  | .vdate .. => 2
  | .vtime .. => 3
  | .vbytes _ => 4

/-- Numeric view of a value (ints and floats); `0` on non-numeric values,
which are never passed to it through `valueLe`. -/
def Value.toRatD : Value → Rat
  | .vint n => (n : Rat)
  | .vfloat q => q
  | _ => 0

/-- Lexicographic `<=` on char lists, Python string comparison by code
points. -/
def charListLe : List Char → List Char → Bool
  | [], _ => true
  | _ :: _, [] => false
  | a :: as, b :: bs =>
    if a.toNat < b.toNat then true
    else if b.toNat < a.toNat then false
    else charListLe as bs

/-- Lexicographic `<=` on byte lists, Python bytes comparison. -/
def natListLe : List Nat → List Nat → Bool
  | [], _ => true
  | _ :: _, [] => false
  | a :: as, b :: bs =>
    if a < b then true
    else if b < a then false
    else natListLe as bs

/-- Lexicographic `<=` on `Nat` triples, the field-wise comparison of
Python dates (year, month, day) and times (hour, minute, second). -/
def natTripleLe (a1 a2 a3 b1 b2 b3 : Nat) : Bool :=
  decide (a1 < b1) ||
    (decide (a1 = b1) &&
      (decide (a2 < b2) || (decide (a2 = b2) && decide (a3 ≤ b3))))

/-- `<=` within one comparability class.  The two numeric variants compare
through their exact rational value; the catch-all covers exactly the numeric
pairs (mixed-class pairs never reach this function through `valueLe`). -/
def sameClassLe (a b : Value) : Bool :=
  match a, b with
  | .vstr s, .vstr t => charListLe s.data t.data
  | .vdate y1 m1 d1, .vdate y2 m2 d2 => natTripleLe y1 m1 d1 y2 m2 d2
  | .vtime h1 mi1 s1, .vtime h2 mi2 s2 => natTripleLe h1 mi1 s1 h2 mi2 s2
  | .vbytes xs, .vbytes ys => natListLe xs ys
  | a, b => decide (a.toRatD ≤ b.toRatD)

/-- A total-order model of Python `<=` on values.  Within one comparability
class it is exactly Python's comparison; across classes Python would raise
`TypeError`, which `sortPass` signals before any comparison happens, so the
cross-class ordering (by class index, chosen to make the function total and
transitive) is never observable. -/
def valueLe (a b : Value) : Bool :=
  if a.classIdx < b.classIdx then true
  else if b.classIdx < a.classIdx then false
  else sameClassLe a b

/-- `<=` on looked-up sort keys.  The `none` cases are unreachable: the key
extraction in `sortPass` raises `KeyError` before sorting if any row lacks
the column. -/
def optValueLe : Option Value → Option Value → Bool
  | none, _ => true
  | some _, none => false
  | some v, some w => valueLe v w

/-- The comparator of one sort pass: `key=lambda x: x[col]` with
`reverse=True` modelled as the flipped comparison, which gives the same
stable descending order as CPython's reverse-sort. -/
def keyLe (col : String) (rev : Bool) (x y : Row) : Bool :=
  if rev then optValueLe (rowGet y col) (rowGet x col)
  else optValueLe (rowGet x col) (rowGet y col)

/-- Key extraction for one sort pass: `x[col]`, raising `KeyError` when the
column is absent.  CPython computes all keys, in list order, before any
comparison. -/
def sortKeyOf (row : Row) (col : String) : Except PyErr Value :=
  match rowGet row col with
  | some v => .ok v
  | none => .error (.keyError col)

/-- All extracted keys lie in one comparability class.  When they do not
(and there are at least two rows), Timsort's run detection is guaranteed to
compare two keys of different classes and raise `TypeError`; for a single
key no comparison happens and the condition holds vacuously. -/
def allSameClass : List Value → Bool
  | [] => true
  | v :: vs => vs.all (fun w => w.classIdx = v.classIdx)

/-- One pass `result.sort(key=lambda x: x[col], reverse=reverse)`
(src/main.py line 55).  `mergeSort` is a stable sort, and a stable sort is
extensionally unique on a total preorder, so it coincides with Timsort on
the comparable inputs; on incomparable inputs CPython raises `TypeError`,
modelled by the class check. -/
def sortPass (col : String) (rev : Bool) (result : List Row) :
    Except PyErr (List Row) :=
  match mapExcept (fun x => sortKeyOf x col) result with
  | .error e => .error e
  | .ok keys =>
    if allSameClass keys then .ok (result.mergeSort (keyLe col rev))
    else .error .compareTypeError

/-- `for ob in reversed(order_by)` (src/main.py lines 51-55): the pass for
the head (primary) key runs last, after all later keys have been sorted. -/
def applyOrderBy : List OrderKey → List Row → Except PyErr (List Row)
  | [], result => .ok result
  | k :: ks, result =>
    match applyOrderBy ks result with
    | .error e => .error e
    | .ok mid => sortPass k.column (k.direction == "DESC") mid

/-- The column-list defaulting of src/main.py lines 40-41: `None` and
`['*']` mean all schema columns in declared order. -/
def effectiveCols (t : Table) (columns : Option (List String)) : List String :=
  match columns with
  | none => t.schema.map Prod.fst
  | some cs => if cs = ["*"] then t.schema.map Prod.fst else cs

/-- The filtering and projection part of `Table.select` (src/main.py lines
38-47): default the column list, keep the rows the predicate accepts, and
project each survivor. -/
def Table.selectBase (t : Table) (columns : Option (List String))
    (wh : Option (Row → Bool)) : Except PyErr (List Row) :=
  mapExcept (projectRow (effectiveCols t columns))
    (t.rows.filter (fun row => matchesWh wh row))

/-- `Table.select` (src/main.py lines 38-57).  `if order_by:` is false both
for `None` and for an empty list. -/
def Table.select (t : Table) (columns : Option (List String))
    (wh : Option (Row → Bool)) (order_by : Option (List OrderKey)) :
    Except PyErr (List Row) :=
  match t.selectBase columns wh with
  | .error e => .error e
  | .ok result =>
    match order_by with
    | none => .ok result
    | some ob => if ob.isEmpty then .ok result else applyOrderBy ob result

/-- The inner loop of `Table.update` (src/main.py lines 64-69): apply the
assignments to one row in order, skipping columns absent from the schema and
validating each value before writing it.  On a failed validation the error
carries the partially-updated row (the source mutates the dict in place). -/
def applyAssignments (schema : Schema) :
    List (String × Value) → Row → Except (PyErr × Row) Row
  | [], row => .ok row
  | (c, v) :: rest, row =>
    match schemaGet schema c with
    | none => applyAssignments schema rest row
    | some dt =>
      if validate_type v dt then applyAssignments schema rest (rowSet row c v)
      else .error (.typeMismatch c dt, row)

/-- The row loop of `Table.update` (src/main.py lines 61-71).  The error
value carries the whole row list as the raised `TypeError` leaves it:
already-processed rows updated, the failing row partially updated, the
remaining rows untouched. -/
def updateGo (schema : Schema) (updates : List (String × Value))
    (wh : Option (Row → Bool)) : List Row → Except (PyErr × List Row) (Nat × List Row)
  | [] => .ok (0, [])
  | row :: rest =>
    if matchesWh wh row then
      match applyAssignments schema updates row with
      | .error (e, row2) => .error (e, row2 :: rest)
      | .ok row2 =>
        match updateGo schema updates wh rest with
        | .error (e, rest2) => .error (e, row2 :: rest2)
        | .ok (n, rest2) => .ok (n + 1, row2 :: rest2)
    else
      match updateGo schema updates wh rest with
      | .error (e, rest2) => .error (e, row :: rest2)
      | .ok (n, rest2) => .ok (n, row :: rest2)

/-- `Table.update` (src/main.py lines 59-71): returns the count of matched
rows; on a failed validation the raised `TypeError` leaves the table
partially updated, so the error carries the resulting table. -/
def Table.update (t : Table) (updates : List (String × Value))
    (wh : Option (Row → Bool)) : Except (PyErr × Table) (Nat × Table) :=
  match updateGo t.schema updates wh t.rows with
  | .error (e, rows2) => .error (e, { t with rows := rows2 })
  | .ok (n, rows2) => .ok (n, { t with rows := rows2 })

/-- `Table.delete` (src/main.py lines 73-77): keep the rows for which
`not (where(row) if where else False)` holds and return how many were
removed.  Note that with `where=None` the kept-condition is `not False`,
i.e. every row is kept. -/
def Table.delete (t : Table) (wh : Option (Row → Bool)) : Nat × Table :=
  let remaining :=
    t.rows.filter (fun row => !(match wh with | some w => w row | none => false))
  (t.rows.length - remaining.length, { t with rows := remaining })

/-! ### The literal parser (`LiteMySQL.parse_value`, src/main.py 425-442) -/

/-- The single-quote character, written by code point to keep the text
plain. -/
def quoteChar : Char := Char.ofNat 39

/-- A nonempty run of (ASCII) digits, the `\d+` of the source regexes. -/
def isDigits (cs : List Char) : Bool :=
  decide (cs ≠ []) && cs.all Char.isDigit

/-- Numeric value of a digit string, as `int()` computes it. -/
def digitsVal (cs : List Char) : Nat :=
  cs.foldl (fun n c => n * 10 + (c.toNat - 48)) 0

/-- The regex `^-?\d+$` (src/main.py line 426). -/
def isIntLit (s : String) : Bool :=
  match s.data with
  | [] => false
  | c :: rest => if c = '-' then isDigits rest else isDigits (c :: rest)

/-- `int(value_str)` on a string accepted by `isIntLit`. -/
def strToInt (s : String) : Int :=
  match s.data with
  | [] => 0
  | c :: rest =>
    if c = '-' then -(digitsVal rest : Int) else (digitsVal (c :: rest) : Int)

/-- Split an optionally-negated decimal literal into sign, integer part and
fractional part. -/
def floatParts (s : String) : Option (Bool × String × String) :=
  let neg := s.startsWith "-"
  let body := if neg then s.drop 1 else s
  match body.splitOn "." with
  | [ip, fp] => some (neg, ip, fp)
  | _ => none

/-- The regex `^-?\d+\.\d+$` (src/main.py line 428). -/
def isFloatLit (s : String) : Bool :=
  match floatParts s with
  | some (_, ip, fp) => isDigits ip.data && isDigits fp.data
  | none => false

/-- `float(value_str)` on a string accepted by `isFloatLit`, as an exact
rational (CPython rounds to binary64; no claim depends on the rounding). -/
def strToRat (s : String) : Rat :=
  match floatParts s with
  | some (neg, ip, fp) =>
    let v : Rat :=
      (digitsVal ip.data : Rat) + (digitsVal fp.data : Rat) / ((10 : Rat) ^ fp.data.length)
    if neg then -v else v
  | none => 0

/-- The regex `^'.*'$` (src/main.py line 430): at least two characters, a
quote at each end, no newline in between (`.` does not match newlines). -/
def isQuotedLit (s : String) : Bool :=
  match s.data with
  | [] => false
  | [_] => false
  | c :: rest =>
    c = quoteChar && rest.getLast? = some quoteChar &&
      ((c :: rest).dropLast.drop 1).all (fun ch => ch ≠ '\n')

/-- `value_str.strip` with the quote character: remove every leading and
trailing quote (src/main.py line 431). -/
def stripQuotes (s : String) : String :=
  ⟨((s.data.dropWhile (fun ch => ch = quoteChar)).reverse.dropWhile
      (fun ch => ch = quoteChar)).reverse⟩

/-- Days in a month under the proleptic Gregorian calendar used by
`datetime.date`. -/
def monthDays (y m : Nat) : Nat :=
  if m = 2 then
    if y % 4 = 0 && (y % 100 ≠ 0 || y % 400 = 0) then 29 else 28
  else if m = 4 || m = 6 || m = 9 || m = 11 then 30
  else 31

/-- One or two digits, the shape of the `%m`, `%d`, `%H`, `%M`, `%S`
fields of `_strptime`. -/
def oneOrTwoDigits (s : String) : Bool :=
  isDigits s.data && decide (s.length ≤ 2)

/-- `datetime.datetime.strptime(value_str, "%Y-%m-%d").date()` (src/main.py
line 434): a four-digit year, a one-or-two-digit month 1-12 and day 1-31
separated by dashes (the `_strptime` field regexes), then the calendar
validation of the `datetime` constructor (year at least 1, day within the
month); `none` models the caught `ValueError`. -/
def parseDateOpt (s : String) : Option Value :=
  match s.splitOn "-" with
  | [ys, ms, ds] =>
    if isDigits ys.data && decide (ys.length = 4) && oneOrTwoDigits ms &&
        oneOrTwoDigits ds then
      let y := digitsVal ys.data
      let m := digitsVal ms.data
      let d := digitsVal ds.data
      if 1 ≤ y && 1 ≤ m && m ≤ 12 && 1 ≤ d && d ≤ 31 && d ≤ monthDays y m then
        some (.vdate y m d)
      else none
    else none
  | _ => none

/-- `datetime.datetime.strptime(value_str, "%H:%M:%S").time()` (src/main.py
line 438): one-or-two-digit fields, hour 0-23 and minute 0-59 by the
`_strptime` regexes; the `%S` regex also admits the leap seconds 60-61,
which the `datetime` constructor then rejects with the same caught
`ValueError`. -/
def parseTimeOpt (s : String) : Option Value :=
  match s.splitOn ":" with
  | [hs, ms, ss] =>
    if oneOrTwoDigits hs && oneOrTwoDigits ms && oneOrTwoDigits ss then
      let h := digitsVal hs.data
      let mi := digitsVal ms.data
      let se := digitsVal ss.data
      if h ≤ 23 && mi ≤ 59 && se ≤ 61 then
        if se ≤ 59 then some (.vtime h mi se) else none
      else none
    else none
  | _ => none

/-- `LiteMySQL.parse_value` (src/main.py lines 425-442). -/
def parse_value (s : String) : Value :=
  if isIntLit s then .vint (strToInt s)
  else if isFloatLit s then .vfloat (strToRat s)
  else if isQuotedLit s then .vstr (stripQuotes s)
  else
    match parseDateOpt s with
    | some v => v
    | none =>
      match parseTimeOpt s with
      | some v => v
      | none => .vstr s

/-- The predicate `lambda row: row.get(col) == val` built by
`LiteMySQL.parse_where` (src/main.py line 370).  `row.get` yields `None`
when the column is absent, and `None` compares unequal to every value
`parse_value` can produce. -/
def wherePred (col : String) (val : Value) (row : Row) : Bool :=
  match rowGet row col with
  | some v => pyEq v val
  | none => false

/-! ### The persistence codec (src/main.py 94-151) -/

/-- The JSON documents the codec reads and writes.  Python's `json` module
distinguishes ints from floats and keeps object keys in insertion order,
so objects are association lists. -/
inductive Json where
  | jint (n : Int)
  | jfloat (q : Rat)
  | jstr (s : String)
  | jarr (elems : List Json)
  | jobj (fields : List (String × Json))

/-- Dict lookup on a JSON object (`data['name']` etc.). -/
def jsonGet : List (String × Json) → String → Option Json
  | [], _ => none
  | (k0, v0) :: rest, k => if k0 = k then some v0 else jsonGet rest k

/-- Zero-pad to two digits (`str` of date and time fields). -/
def pad2 (n : Nat) : String :=
  if n < 10 then "0" ++ toString n else toString n

/-- Zero-pad a year to four digits (`str` of a `datetime.date`). -/
def pad4 (n : Nat) : String :=
  if n < 10 then "000" ++ toString n
  else if n < 100 then "00" ++ toString n
  else if n < 1000 then "0" ++ toString n
  else toString n

/-- `str(datetime.date(y, m, d))`: ISO `YYYY-MM-DD`. -/
def dateStr (y m d : Nat) : String :=
  pad4 y ++ "-" ++ pad2 m ++ "-" ++ pad2 d

/-- `str(datetime.time(h, mi, se))`: `HH:MM:SS`. -/
def timeStr (h mi se : Nat) : String :=
  pad2 h ++ ":" ++ pad2 mi ++ ":" ++ pad2 se

/-- `str` of a value as printed by the SELECT handler.  The decimal
rendering of a float and the escaping inside `str(bytes)` are not modelled
bit-exactly; no claim inspects those texts. -/
def pyStr (v : Value) : String :=
  match v with
  | .vint n => toString n
  | .vfloat q => toString q
  | .vstr s => s
  | .vdate y m d => dateStr y m d
  | .vtime h mi se => timeStr h mi se
  | .vbytes bs => "b" ++ String.singleton quoteChar ++ ⟨bs.map Char.ofNat⟩ ++ String.singleton quoteChar

/-- How `json.dump(..., default=str)` writes one stored value: ints, floats
and strings natively, everything else through its `str` text (src/main.py
line 134). -/
def valueToJson (v : Value) : Json :=
  match v with
  | .vint n => .jint n
  | .vfloat q => .jfloat q
  | .vstr s => .jstr s
  | v => .jstr (pyStr v)

/-- The value a loaded JSON scalar becomes (`json.load` gives Python
ints, floats and strings).  Arrays and objects inside a row would load as
raw lists and dicts, which the engine value model does not cover; they
cannot occur in a document produced by `save_to_file`, and are modelled as
a load failure. -/
def jsonToValue : Json → Option Value
  | .jint n => some (.vint n)
  | .jfloat q => some (.vfloat q)
  | .jstr s => some (.vstr s)
  | _ => none

/-- A row as loaded from the document (`table.rows = data['rows']`,
assigned as-is). -/
def rowFromJson : Json → Option Row
  | .jobj fields => mapOption (fun p => (jsonToValue p.2).map (fun v => (p.1, v))) fields
  | _ => none

/-- `Table.to_dict` (src/main.py lines 94-100). -/
def Table.to_dict (t : Table) : Json :=
  .jobj
    [("name", .jstr t.name),
     ("schema", .jobj (t.schema.map (fun p => (p.1, Json.jstr p.2.value)))),
     ("rows", .jarr (t.rows.map (fun r => Json.jobj (r.map (fun p => (p.1, valueToJson p.2))))))]

/-- `Table.from_dict` (src/main.py lines 102-108): rebuild the schema from
the tag strings (`DataType(dtype)` raises on an unknown tag) and take the
rows as loaded. -/
def Table.from_dict (j : Json) : Option Table :=
  match j with
  | .jobj fields =>
    match jsonGet fields "name", jsonGet fields "schema", jsonGet fields "rows" with
    | some (.jstr nm), some (.jobj schemaFields), some (.jarr rowsJson) =>
      match mapOption
          (fun p =>
            match p.2 with
            | .jstr tag => (DataType.ofString tag).map (fun dt => (p.1, dt))
            | _ => none)
          schemaFields,
        mapOption rowFromJson rowsJson with
      | some schema, some rows => some ⟨nm, schema, rows⟩
      | _, _ => none
    | _, _, _ => none
  | _ => none

/-- The database: a dict from table name to table (src/main.py 110-112). -/
structure Database where
  tables : List (String × Table)
deriving DecidableEq, Repr

/-- `Database.to_dict` (src/main.py lines 125-129). -/
def Database.to_dict (db : Database) : Json :=
  .jobj [("tables", .jobj (db.tables.map (fun p => (p.1, p.2.to_dict))))]

/-- The decoding half of `Database.load_from_file` (src/main.py lines
146-148) applied to an already-parsed document: rebuild every table of
`data.get('tables', \x7b\x7d)`.  A missing `tables` key loads an empty
database; a malformed table is modelled as a failure of the whole load
(the source would print the error and stop, keeping the tables already
loaded — unreachable for documents produced by `save_to_file`). -/
def Database.loadFromDoc (j : Json) : Option Database :=
  match j with
  | .jobj fields =>
    match jsonGet fields "tables" with
    | some (.jobj tbls) =>
      (mapOption (fun p => (Table.from_dict p.2).map (fun t => (p.1, t))) tbls).map Database.mk
    | some _ => none
    | none => some ⟨[]⟩
  | _ => none

/-! ### The SELECT statement handler (src/main.py 279-294) -/

/-- Dict lookup `self.db.tables[name]`. -/
def findTable (db : Database) (nm : String) : Option Table :=
  match db.tables.find? (fun p => p.1 = nm) with
  | some p => some p.2
  | none => none

/-- `str` of the exceptions the engine raises, as interpolated into the
printed diagnostics.  `str(KeyError(col))` is the quoted column name; the
text CPython attaches to a cross-type comparison `TypeError` is not
reproduced verbatim. -/
def pyExcStr : PyErr → String
  | .schemaMismatch => "The columns of the record do not match the schema of the table"
  | .typeMismatch c dt => "Error " ++ c ++ " should be " ++ dt.value ++ "."
  | .keyError c => String.singleton quoteChar ++ c ++ String.singleton quoteChar
  | .compareTypeError => "unorderable types"

/-- The output of `handle_select` after parsing, one printed line per list
entry (src/main.py lines 279-294): unknown table and caught exceptions each
print a single diagnostic; otherwise a tab-joined header of the first
result's keys and one tab-joined line per row, or a no-rows message. -/
def handleSelectExec (db : Database) (tableName : String)
    (columns : Option (List String)) (wh : Option (Row → Bool))
    (order_by : Option (List OrderKey)) : List String :=
  match findTable db tableName with
  | none => ["Table " ++ tableName ++ " does not exist"]
  | some t =>
    match t.select columns wh order_by with
    | .error e => ["Error: " ++ pyExcStr e]
    | .ok results =>
      match results with
      | [] => ["No eligible records"]
      | r0 :: _ =>
        String.intercalate "\t" (r0.map Prod.fst) ::
          results.map (fun r => String.intercalate "\t" (r.map (fun p => pyStr p.2)))

/-! ### Derived predicates used by the claims -/

/-- Type-validity of a whole record against a schema: every entry's column
is declared and its value's variant matches. -/
def rowTypesOk (schema : Schema) (r : Row) : Bool :=
  r.all (fun p =>
    match schemaGet schema p.1 with
    | some dt => validate_type p.2 dt
    | none => false)
/-- The state of one row after the assignment loop, whether it completed or
was interrupted by the `TypeError` (the source mutates the dict in place,
so the interrupted row keeps the assignments applied before the failing
one). -/
def rowAfterAssignments (schema : Schema) (updates : List (String × Value))
    (row : Row) : Row :=
  match applyAssignments schema updates row with
  | .ok r2 => r2
  | .error (_, r2) => r2
/-- The row invariant: the row's key set equals the schema's, and every
value validates against its column's declared type. -/
def rowWF (schema : Schema) (r : Row) : Bool :=
  sameKeySet (r.map Prod.fst) (schema.map Prod.fst) && rowTypesOk schema r
/-- All rows of the table satisfy the row invariant. -/
def Table.wf (t : Table) : Bool :=
  t.rows.all (fun r => rowWF t.schema r)
/-- The declared types whose values the document format represents
natively. -/
def scalarType (dt : DataType) : Bool :=
  match dt with
  | .INTEGER => true
  | .FLOAT => true
  | .CHAR => true
  | _ => false
/-- The values the document format represents natively. -/
def scalarValue (v : Value) : Bool :=
  match v with
  | .vint _ => true
  | .vfloat _ => true
  | .vstr _ => true
  | _ => false
/-- A table whose columns are all Integer/Float/Char and whose rows satisfy
the row invariant. -/
def tableScalarOK (t : Table) : Bool :=
  t.schema.all (fun p => scalarType p.2) && t.wf
/-- The pass comparator lifted to index-tagged rows (the tag plays no role
in the comparison; it only makes rows distinguishable in the stability
argument). -/
def ikeyLe (k : OrderKey) (x y : Nat × Row) : Bool :=
  keyLe k.column (k.direction == "DESC") x.2 y.2
/-- Lexicographic comparison along the ordering keys: the first key that
strictly separates two rows decides; full ties compare equal. -/
def lexLeB : List OrderKey → Row → Row → Bool
  | [], _, _ => true
  | k :: ks, x, y =>
    if keyLe k.column (k.direction == "DESC") x y &&
        !(keyLe k.column (k.direction == "DESC") y x) then true
    else if keyLe k.column (k.direction == "DESC") y x &&
        !(keyLe k.column (k.direction == "DESC") x y) then false
    else lexLeB ks x y
/-- Two rows agree on every ordering key. -/
def tiedAllB (ob : List OrderKey) (x y : Row) : Bool :=
  ob.all (fun k => rowGet x k.column == rowGet y k.column)
/-- Every ordering key holds an integer in every row (the totally-ordered
case in which Python raises no comparison error). -/
def intKeyedB (ob : List OrderKey) (rows : List Row) : Bool :=
  ob.all (fun k => rows.all (fun r =>
    match rowGet r k.column with
    | some (.vint _) => true
    | _ => false))
/-- The sequence of stable sort passes of `applyOrderBy`, on index-tagged
rows: the pass for the head key runs last. -/
def isortPasses : List OrderKey → List (Nat × Row) → List (Nat × Row)
  | [], L => L
  | k :: ks, L => (isortPasses ks L).mergeSort (ikeyLe k)

/-! ### Shared lemmas -/

/-- `mapExcept` succeeds exactly at pointwise successes. -/
theorem mapExcept_ok_iff {α β ε : Type} {f : α → Except ε β} :
    ∀ {l : List α} {out : List β},
      mapExcept f l = .ok out ↔ List.Forall₂ (fun x y => f x = .ok y) l out := by
  intro l
  induction l with
  | nil =>
    intro out
    constructor
    · intro h
      simp only [mapExcept, Except.ok.injEq] at h
      cases h
      exact .nil
    · intro h; cases h; rfl
  | cons a l ih =>
    intro out
    constructor
    · intro h
      simp only [mapExcept] at h
      cases hfa : f a with
      | error e => rw [hfa] at h; cases h
      | ok y =>
        rw [hfa] at h
        cases hml : mapExcept f l with
        | error e => rw [hml] at h; cases h
        | ok ys =>
          rw [hml] at h
          simp only [Except.ok.injEq] at h
          cases h
          exact .cons hfa (ih.mp hml)
    · intro h
      cases h with
      | cons hfa hrest => simp [mapExcept, hfa, ih.mpr hrest]

/-- Every element of a `mapExcept` success comes from a source element. -/
theorem mapExcept_ok_mem {α β ε : Type} {f : α → Except ε β} {l : List α}
    {out : List β} (h : mapExcept f l = .ok out) :
    ∀ y ∈ out, ∃ x ∈ l, f x = .ok y := by
  have h2 := mapExcept_ok_iff.mp h
  clear h
  induction h2 with
  | nil => intro y hy; cases hy
  | cons hfa _ ih =>
    intro y hy
    rcases List.mem_cons.mp hy with rfl | hy'
    · exact ⟨_, List.mem_cons_self _ _, hfa⟩
    · rcases ih y hy' with ⟨x, hx, hfx⟩
      exact ⟨x, List.mem_cons_of_mem _ hx, hfx⟩

/-- A `mapExcept` success covers every source element. -/
theorem mapExcept_ok_forall {α β ε : Type} {f : α → Except ε β} {l : List α}
    {out : List β} (h : mapExcept f l = .ok out) :
    ∀ x ∈ l, ∃ y ∈ out, f x = .ok y := by
  have h2 := mapExcept_ok_iff.mp h
  clear h
  induction h2 with
  | nil => intro x hx; cases hx
  | cons hfa _ ih =>
    intro x hx
    rcases List.mem_cons.mp hx with rfl | hx'
    · exact ⟨_, List.mem_cons_self _ _, hfa⟩
    · rcases ih x hx' with ⟨y, hy, hfy⟩
      exact ⟨y, List.mem_cons_of_mem _ hy, hfy⟩

/-- `mapExcept` succeeds when every element succeeds. -/
theorem mapExcept_ok_of_forall {α β ε : Type} {f : α → Except ε β} :
    ∀ {l : List α}, (∀ x ∈ l, ∃ y, f x = .ok y) →
      ∃ out, mapExcept f l = .ok out := by
  intro l
  induction l with
  | nil => intro _; exact ⟨[], rfl⟩
  | cons a l ih =>
    intro h
    rcases h a (List.mem_cons_self _ _) with ⟨y, hy⟩
    rcases ih (fun x hx => h x (List.mem_cons_of_mem _ hx)) with ⟨out, hout⟩
    exact ⟨y :: out, by simp [mapExcept, hy, hout]⟩

/-- Sorting the empty row list always succeeds with the empty list. -/
theorem applyOrderBy_nil_rows : ∀ ks : List OrderKey, applyOrderBy ks [] = .ok [] := by
  intro ks
  induction ks with
  | nil => rfl
  | cons k ks ih => simp [applyOrderBy, ih, sortPass, mapExcept, allSameClass]

/-- Projecting onto the empty column list yields the empty row. -/
theorem mapExcept_projectRow_nil :
    ∀ l : List Row, mapExcept (projectRow []) l = .ok (l.map fun _ => ([] : Row)) := by
  intro l
  induction l with
  | nil => rfl
  | cons r l ih => simp [mapExcept, ih, projectRow, projectGo]

/-! ### C1 — DELETE with no predicate -/

/-- C1: on the code, `delete` with no predicate removes no row at all and
returns 0: the kept-condition `not (where(row) if where else False)` is
`not False`, i.e. true, for every row (src/main.py line 76).  This theorem
evaluates the code's behavior, which contradicts the claim that an absent
predicate deletes every row (and the spec text that an absent predicate
means match-all for every operation, as it does for select and update). -/
theorem delete_none_removes_nothing (t : Table) : t.delete none = (0, t) := by
  have hrem : t.rows.filter
      (fun row => !(match (none : Option (Row → Bool)) with | some w => w row | none => false)) =
      t.rows :=
    List.filter_eq_self.mpr (fun a _ => rfl)
  simp only [Table.delete, hrem, Nat.sub_self]

/-! ### C3 — empty column list versus `['*']` -/

/-- C3 counterexample: on a one-column table with one row, `select` with an
empty column list projects the row to zero columns, while `select` with
`['*']` keeps the full row — the two calls differ, refuting the claim that
an empty list behaves like `['*']` (the `if columns is None or
columns == ['*']` test of src/main.py line 40 does not cover `[]`). -/
theorem select_empty_columns_ne_star :
    Table.select ⟨"t", [("id", .INTEGER)], [[("id", .vint 1)]]⟩ (some []) none none ≠
      Table.select ⟨"t", [("id", .INTEGER)], [[("id", .vint 1)]]⟩ (some ["*"]) none none := by
  decide

/-- C3 amended: it is `select` with `None` (the default) that behaves like
`['*']`, projecting every surviving row to all schema columns in declared
order; an empty column list instead projects every surviving row to the
empty row. -/
theorem select_none_columns_is_star (t : Table) (wh : Option (Row → Bool)) :
    t.select none wh none = t.select (some ["*"]) wh none ∧
    t.select (some []) wh none =
      .ok ((t.rows.filter (matchesWh wh)).map (fun _ => ([] : Row))) := by
  constructor
  · rfl
  · simp +decide [Table.select, Table.selectBase, effectiveCols, mapExcept_projectRow_nil]

/-! ### C7 — literal parsing precedence -/

/-- C7: `parse_value` applies its conversions with the first match winning,
in the order: integer literal, float literal, quoted text (quotes
stripped), date pattern, time pattern, and otherwise the text itself
(src/main.py lines 425-442). -/
theorem parse_value_precedence (s : String) :
    (isIntLit s = true → parse_value s = .vint (strToInt s)) ∧
    (isIntLit s = false → isFloatLit s = true → parse_value s = .vfloat (strToRat s)) ∧
    (isIntLit s = false → isFloatLit s = false → isQuotedLit s = true →
      parse_value s = .vstr (stripQuotes s)) ∧
    (isIntLit s = false → isFloatLit s = false → isQuotedLit s = false →
      ∀ v, parseDateOpt s = some v → parse_value s = v) ∧
    (isIntLit s = false → isFloatLit s = false → isQuotedLit s = false →
      parseDateOpt s = none → ∀ v, parseTimeOpt s = some v → parse_value s = v) ∧
    (isIntLit s = false → isFloatLit s = false → isQuotedLit s = false →
      parseDateOpt s = none → parseTimeOpt s = none → parse_value s = .vstr s) := by
  refine ⟨?_, ?_, ?_, ?_, ?_, ?_⟩ <;> intros <;> simp [parse_value, *]

/-- C7 witness: the integer branch fires on `"12"`. -/
theorem parse_value_precedence_witness : parse_value "12" = .vint 12 := by
  have h := (parse_value_precedence "12").1 (by decide)
  exact h.trans (by decide)

/-! ### C9 — WHERE on a column no row has -/

/-- If no row matches, the update loop changes nothing and counts zero. -/
theorem updateGo_no_match {schema : Schema} {updates : List (String × Value)}
    {wh : Option (Row → Bool)} :
    ∀ {rows : List Row}, (∀ r ∈ rows, matchesWh wh r = false) →
      updateGo schema updates wh rows = .ok (0, rows) := by
  intro rows
  induction rows with
  | nil => intro _; rfl
  | cons row rest ih =>
    intro h
    have hrow : matchesWh wh row = false := h row (List.mem_cons_self _ _)
    have hrest := ih (fun r hr => h r (List.mem_cons_of_mem _ hr))
    simp [updateGo, hrow, hrest]

/-- C9: the predicate built from `WHERE col = lit` is false on every row
lacking `col` (the `row.get(col)` sentinel `None` never equals a parsed
literal), so with such a predicate `select` returns no rows and `update`
and `delete` touch nothing and report zero. -/
theorem where_missing_column_affects_nothing (t : Table) (col : String) (v : Value)
    (cols : Option (List String)) (ob : Option (List OrderKey))
    (updates : List (String × Value))
    (h : ∀ r ∈ t.rows, rowGet r col = none) :
    (∀ r ∈ t.rows, wherePred col v r = false) ∧
    t.select cols (some (wherePred col v)) ob = .ok [] ∧
    t.update updates (some (wherePred col v)) = .ok (0, t) ∧
    t.delete (some (wherePred col v)) = (0, t) := by
  have hpred : ∀ r ∈ t.rows, wherePred col v r = false := by
    intro r hr
    simp [wherePred, h r hr]
  refine ⟨hpred, ?_, ?_, ?_⟩
  · have hfil : t.rows.filter (fun row => matchesWh (some (wherePred col v)) row) = [] :=
      List.filter_eq_nil_iff.mpr (fun r hr => by simp [matchesWh, hpred r hr])
    have hbase : t.selectBase cols (some (wherePred col v)) = .ok [] := by
      simp only [Table.selectBase, hfil]
      rfl
    cases ob with
    | none => simp [Table.select, hbase]
    | some obl =>
      cases hobl : obl.isEmpty with
      | true => simp [Table.select, hbase, hobl]
      | false => simp [Table.select, hbase, hobl, applyOrderBy_nil_rows]
  · have hgo : updateGo t.schema updates (some (wherePred col v)) t.rows =
        .ok (0, t.rows) :=
      updateGo_no_match (fun r hr => by simp [matchesWh, hpred r hr])
    simp [Table.update, hgo]
  · have hrem : t.rows.filter (fun row => !(wherePred col v row)) = t.rows :=
      List.filter_eq_self.mpr (fun r hr => by simp [hpred r hr])
    simp only [Table.delete, hrem, Nat.sub_self]

/-- C9 witness at a concrete table and literal. -/
theorem where_missing_column_affects_nothing_witness :
    Table.select ⟨"t", [("id", .INTEGER)], [[("id", .vint 1)]]⟩ none
        (some (wherePred "zz" (.vint 1))) none = .ok [] ∧
    Table.delete ⟨"t", [("id", .INTEGER)], [[("id", .vint 1)]]⟩
        (some (wherePred "zz" (.vint 1))) =
      (0, ⟨"t", [("id", .INTEGER)], [[("id", .vint 1)]]⟩) := by
  have h := where_missing_column_affects_nothing
    ⟨"t", [("id", .INTEGER)], [[("id", .vint 1)]]⟩ "zz" (.vint 1) none none []
    (by decide)
  exact ⟨h.2.1, h.2.2.2⟩

/-! ### C5 — insert error cases -/

/-- A key contained in a schema's key list has a lookup result. -/
theorem schemaGet_isSome_of_contains {schema : Schema} {c : String}
    (h : (schema.map Prod.fst).contains c = true) :
    ∃ dt, schemaGet schema c = some dt := by
  induction schema with
  | nil => simp at h
  | cons p rest ih =>
    by_cases hc : p.1 = c
    · exact ⟨p.2, by simp [schemaGet, hc]⟩
    · have h' : (rest.map Prod.fst).contains c = true := by
        simp only [List.map_cons, List.contains_cons] at h
        rcases Bool.or_eq_true_iff.mp h with h1 | h2
        · exact absurd (beq_iff_eq.mp h1).symm hc
        · exact h2
      rcases ih h' with ⟨dt, hdt⟩
      exact ⟨dt, by simp [schemaGet, hc, hdt]⟩

/-- With a key-set match, every record key resolves in the schema. -/
theorem keys_resolve_of_sameKeySet {schema : Schema} {r : Row}
    (h : sameKeySet (r.map Prod.fst) (schema.map Prod.fst) = true) :
    ∀ p ∈ r, ∃ dt, schemaGet schema p.1 = some dt := by
  intro p hp
  have h1 := (Bool.and_eq_true_iff.mp h).1
  rw [List.all_eq_true] at h1
  exact schemaGet_isSome_of_contains (h1 p.1 (List.mem_map_of_mem Prod.fst hp))

/-- The insert validation loop succeeds exactly when the record is
type-valid, provided every key resolves. -/
theorem checkRecord_ok_iff {schema : Schema} :
    ∀ {r : Row}, (∀ p ∈ r, ∃ dt, schemaGet schema p.1 = some dt) →
      (checkRecord schema r = .ok () ↔ rowTypesOk schema r = true) := by
  intro r
  induction r with
  | nil => intro _; simp [checkRecord, rowTypesOk]
  | cons p rest ih =>
    intro h
    rcases h p (List.mem_cons_self _ _) with ⟨dt, hdt⟩
    have ih' := ih (fun q hq => h q (List.mem_cons_of_mem _ hq))
    obtain ⟨c, v⟩ := p
    by_cases hv : validate_type v dt = true
    · simp [checkRecord, rowTypesOk, hdt, hv, ← ih', rowTypesOk] at ih' ⊢
      exact ih'
    · simp [checkRecord, rowTypesOk, hdt, Bool.eq_false_iff.mpr hv]

/-- A type-invalid record makes the validation loop fail with a
`TypeMismatch` naming a genuinely invalid column. -/
theorem checkRecord_error_of_invalid {schema : Schema} :
    ∀ {r : Row}, (∀ p ∈ r, ∃ dt, schemaGet schema p.1 = some dt) →
      rowTypesOk schema r = false →
      ∃ c dt v, checkRecord schema r = .error (.typeMismatch c dt) ∧
        schemaGet schema c = some dt ∧ (c, v) ∈ r ∧ validate_type v dt = false := by
  intro r
  induction r with
  | nil => intro _ h; simp [rowTypesOk] at h
  | cons p rest ih =>
    intro hkeys h
    rcases hkeys p (List.mem_cons_self _ _) with ⟨dt, hdt⟩
    obtain ⟨c, v⟩ := p
    by_cases hv : validate_type v dt = true
    · have hrest : rowTypesOk schema rest = false := by
        simp [rowTypesOk, hdt, hv] at h
        simp [rowTypesOk, h]
      rcases ih (fun q hq => hkeys q (List.mem_cons_of_mem _ hq)) hrest with
        ⟨c2, dt2, v2, hcr, hdt2, hmem, hval⟩
      exact ⟨c2, dt2, v2, by simp [checkRecord, hdt, hv, hcr],
        hdt2, List.mem_cons_of_mem _ hmem, hval⟩
    · exact ⟨c, dt, v, by simp [checkRecord, hdt, Bool.eq_false_iff.mpr hv],
        hdt, List.mem_cons_self _ _, Bool.eq_false_iff.mpr hv⟩

/-- C5: `insert` fails with the schema-mismatch error when the record's key
set differs from the schema's, fails with a `TypeMismatch` naming an
invalid column when some value's variant disagrees with its declared type,
and otherwise appends the record at the end of the row list.  In the
failure cases the exception is raised before `self.rows.append`
(src/main.py line 36), so the row sequence — in particular the row count —
is unchanged. -/
theorem insert_characterization (t : Table) (r : Row) :
    (sameKeySet (r.map Prod.fst) (t.schema.map Prod.fst) = false →
      t.insert r = .error .schemaMismatch) ∧
    (sameKeySet (r.map Prod.fst) (t.schema.map Prod.fst) = true →
      (rowTypesOk t.schema r = true →
        t.insert r = .ok { t with rows := t.rows ++ [r] }) ∧
      (rowTypesOk t.schema r = false →
        ∃ c dt v, t.insert r = .error (.typeMismatch c dt) ∧
          schemaGet t.schema c = some dt ∧ (c, v) ∈ r ∧
          validate_type v dt = false)) := by
  refine ⟨fun h => by simp [Table.insert, h], fun h => ⟨fun hok => ?_, fun hbad => ?_⟩⟩
  · have hkeys := keys_resolve_of_sameKeySet h
    have hcr := (checkRecord_ok_iff hkeys).mpr hok
    simp [Table.insert, h, hcr]
  · have hkeys := keys_resolve_of_sameKeySet h
    rcases checkRecord_error_of_invalid hkeys hbad with ⟨c, dt, v, hcr, hdt, hmem, hval⟩
    exact ⟨c, dt, v, by simp [Table.insert, h, hcr], hdt, hmem, hval⟩

/-- C5 witness: a successful insert appends, a mismatched record fails. -/
theorem insert_characterization_witness :
    Table.insert ⟨"t", [("id", .INTEGER)], []⟩ [("id", .vint 1)] =
      .ok ⟨"t", [("id", .INTEGER)], [[("id", .vint 1)]]⟩ ∧
    Table.insert ⟨"t", [("id", .INTEGER)], []⟩ [("other", .vint 1)] =
      .error .schemaMismatch := by
  constructor
  · have h := ((insert_characterization ⟨"t", [("id", .INTEGER)], []⟩
      [("id", .vint 1)]).2 (by decide)).1 (by decide)
    exact h.trans (by decide)
  · exact (insert_characterization ⟨"t", [("id", .INTEGER)], []⟩
      [("other", .vint 1)]).1 (by decide)

/-! ### C4 — UPDATE aborts mid-way and is not atomic -/

/-- The assignment loop only ever raises a `TypeMismatch`, at an assignment
that is genuinely invalid for the schema. -/
theorem applyAssignments_error_shape {schema : Schema} :
    ∀ {updates : List (String × Value)} {row r2 : Row} {e : PyErr},
      applyAssignments schema updates row = .error (e, r2) →
      ∃ c dt v, e = .typeMismatch c dt ∧ schemaGet schema c = some dt ∧
        validate_type v dt = false ∧ (c, v) ∈ updates := by
  intro updates
  induction updates with
  | nil => intro row r2 e h; simp [applyAssignments] at h
  | cons p rest ih =>
    intro row r2 e h
    obtain ⟨c0, v0⟩ := p
    cases hs : schemaGet schema c0 with
    | none =>
      simp only [applyAssignments, hs] at h
      rcases ih h with ⟨c, dt, v, he, hdt, hval, hmem⟩
      exact ⟨c, dt, v, he, hdt, hval, List.mem_cons_of_mem _ hmem⟩
    | some dt0 =>
      by_cases hv : validate_type v0 dt0 = true
      · simp only [applyAssignments, hs, if_pos hv] at h
        rcases ih h with ⟨c, dt, v, he, hdt, hval, hmem⟩
        exact ⟨c, dt, v, he, hdt, hval, List.mem_cons_of_mem _ hmem⟩
      · simp only [applyAssignments, hs, if_neg hv, Except.error.injEq,
          Prod.mk.injEq] at h
        exact ⟨c0, dt0, v0, h.1.symm, hs, Bool.eq_false_iff.mpr hv,
          List.mem_cons_self _ _⟩

/-- Whether the assignment loop raises, and with which error, does not
depend on the row: validation only consults the updates and the schema. -/
theorem applyAssignments_error_row_independent {schema : Schema} :
    ∀ {updates : List (String × Value)} {row r2 : Row} {e : PyErr},
      applyAssignments schema updates row = .error (e, r2) →
      ∀ row' : Row, ∃ r2', applyAssignments schema updates row' = .error (e, r2') := by
  intro updates
  induction updates with
  | nil => intro row r2 e h; simp [applyAssignments] at h
  | cons p rest ih =>
    intro row r2 e h row'
    obtain ⟨c0, v0⟩ := p
    cases hs : schemaGet schema c0 with
    | none =>
      simp only [applyAssignments, hs] at h ⊢
      exact ih h row'
    | some dt0 =>
      by_cases hv : validate_type v0 dt0 = true
      · simp only [applyAssignments, hs, if_pos hv] at h ⊢
        exact ih h (rowSet row' c0 v0)
      · simp only [applyAssignments, hs, if_neg hv, Except.error.injEq,
          Prod.mk.injEq] at h ⊢
        exact ⟨row', h.1, rfl⟩

/-- If some row matches and the assignment loop raises `e`, the row loop
raises `e`. -/
theorem updateGo_error_of_bad {schema : Schema} {updates : List (String × Value)}
    {wh : Option (Row → Bool)} {e : PyErr}
    (hbad : ∀ row : Row, ∃ r2, applyAssignments schema updates row = .error (e, r2)) :
    ∀ {rows : List Row}, (∃ r ∈ rows, matchesWh wh r = true) →
      ∃ rows2, updateGo schema updates wh rows = .error (e, rows2) := by
  intro rows
  induction rows with
  | nil => intro h; rcases h with ⟨r, hr, _⟩; cases hr
  | cons row rest ih =>
    intro h
    by_cases hm : matchesWh wh row = true
    · rcases hbad row with ⟨r2, hr2⟩
      exact ⟨r2 :: rest, by simp [updateGo, hm, hr2]⟩
    · have hrest : ∃ r ∈ rest, matchesWh wh r = true := by
        rcases h with ⟨r, hr, hmr⟩
        rcases List.mem_cons.mp hr with rfl | hr'
        · exact absurd hmr hm
        · exact ⟨r, hr', hmr⟩
      rcases ih hrest with ⟨rest2, hrest2⟩
      exact ⟨row :: rest2, by simp [updateGo, hm, hrest2]⟩

/-- The shape of the row list carried by an update error: the rows before
the failing one processed normally (matching ones fully updated), the
failing row partially updated, the rest untouched. -/
theorem updateGo_error_decomp {schema : Schema} {updates : List (String × Value)}
    {wh : Option (Row → Bool)} :
    ∀ {rows rows2 : List Row} {e : PyErr},
      updateGo schema updates wh rows = .error (e, rows2) →
      ∃ pre row suf,
        rows = pre ++ row :: suf ∧
        matchesWh wh row = true ∧
        applyAssignments schema updates row =
          .error (e, rowAfterAssignments schema updates row) ∧
        (∀ r ∈ pre, matchesWh wh r = true →
          applyAssignments schema updates r =
            .ok (rowAfterAssignments schema updates r)) ∧
        rows2 = pre.map (fun r =>
            if matchesWh wh r then rowAfterAssignments schema updates r else r) ++
          rowAfterAssignments schema updates row :: suf := by
  intro rows
  induction rows with
  | nil => intro rows2 e h; simp [updateGo] at h
  | cons row rest ih =>
    intro rows2 e h
    simp only [updateGo] at h
    by_cases hm : matchesWh wh row = true
    · rw [if_pos hm] at h
      cases ha : applyAssignments schema updates row with
      | error pe =>
        obtain ⟨e0, row2⟩ := pe
        rw [ha] at h
        simp only [Except.error.injEq, Prod.mk.injEq] at h
        obtain ⟨he, hrows2⟩ := h
        subst he
        subst hrows2
        refine ⟨[], row, rest, rfl, hm, ?_, ?_, ?_⟩
        · simp only [rowAfterAssignments, ha]
        · intro r hr
          cases hr
        · simp only [rowAfterAssignments, ha, List.map_nil, List.nil_append]
      | ok row2 =>
        rw [ha] at h
        cases hrest : updateGo schema updates wh rest with
        | error pe2 =>
          obtain ⟨e2, rest2⟩ := pe2
          rw [hrest] at h
          simp only [Except.error.injEq, Prod.mk.injEq] at h
          obtain ⟨he, hrows2⟩ := h
          subst he
          subst hrows2
          rcases ih hrest with ⟨pre, rx, suf, hsplit, hmx, hax, hpre, hres⟩
          refine ⟨row :: pre, rx, suf, ?_, hmx, hax, ?_, ?_⟩
          · simp [hsplit]
          · intro r hr hmr
            rcases List.mem_cons.mp hr with rfl | hr'
            · simp only [rowAfterAssignments, ha]
            · exact hpre r hr' hmr
          · simp only [List.map_cons, if_pos hm, List.cons_append, hres]
            simp only [rowAfterAssignments, ha]
        | ok p =>
          rw [hrest] at h
          cases h
    · rw [if_neg hm] at h
      cases hrest : updateGo schema updates wh rest with
      | error pe2 =>
        obtain ⟨e2, rest2⟩ := pe2
        rw [hrest] at h
        simp only [Except.error.injEq, Prod.mk.injEq] at h
        obtain ⟨he, hrows2⟩ := h
        subst he
        subst hrows2
        rcases ih hrest with ⟨pre, rx, suf, hsplit, hmx, hax, hpre, hres⟩
        refine ⟨row :: pre, rx, suf, ?_, hmx, hax, ?_, ?_⟩
        · simp [hsplit]
        · intro r hr hmr
          rcases List.mem_cons.mp hr with rfl | hr'
          · exact absurd hmr hm
          · exact hpre r hr' hmr
        · simp only [List.map_cons, if_neg hm, List.cons_append, hres]
      | ok p =>
        rw [hrest] at h
        cases h

/-- C4: when an assignment fails type validation on a matching row the
whole update aborts with that `TypeMismatch` (first conjunct), and the
aborted update leaves every already-applied mutation in place rather than
restoring the pre-update state (second conjunct): the error state is the
rows before the failing one with their updates applied, the failing row
with the assignments before the failing one applied, and the remaining
rows untouched. -/
theorem update_abort_not_atomic (t : Table) (updates : List (String × Value))
    (wh : Option (Row → Bool)) :
    (∀ r ∈ t.rows, matchesWh wh r = true →
      ∀ e r2, applyAssignments t.schema updates r = .error (e, r2) →
        ∃ t2, t.update updates wh = .error (e, t2)) ∧
    (∀ e t2, t.update updates wh = .error (e, t2) →
      (∃ c dt, e = .typeMismatch c dt) ∧
      t2.name = t.name ∧ t2.schema = t.schema ∧
      ∃ pre row suf,
        t.rows = pre ++ row :: suf ∧
        matchesWh wh row = true ∧
        applyAssignments t.schema updates row =
          .error (e, rowAfterAssignments t.schema updates row) ∧
        (∀ r ∈ pre, matchesWh wh r = true →
          applyAssignments t.schema updates r =
            .ok (rowAfterAssignments t.schema updates r)) ∧
        t2.rows = pre.map (fun r =>
            if matchesWh wh r then rowAfterAssignments t.schema updates r else r) ++
          rowAfterAssignments t.schema updates row :: suf) := by
  constructor
  · intro r hr hm e r2 ha
    have hbad := applyAssignments_error_row_independent ha
    rcases updateGo_error_of_bad hbad ⟨r, hr, hm⟩ with ⟨rows2, hgo⟩
    exact ⟨{ t with rows := rows2 }, by simp [Table.update, hgo]⟩
  · intro e t2 h
    unfold Table.update at h
    cases hg : updateGo t.schema updates wh t.rows with
    | ok p =>
      rw [hg] at h
      cases h
    | error pe =>
      obtain ⟨e0, rows2⟩ := pe
      rw [hg] at h
      simp only [Except.error.injEq, Prod.mk.injEq] at h
      obtain ⟨he, ht2⟩ := h
      subst he
      rcases updateGo_error_decomp hg with ⟨pre, row, suf, hsplit, hmx, hax, hpre, hres⟩
      rcases applyAssignments_error_shape hax with ⟨c, dt, v, hec, _, _, _⟩
      exact ⟨⟨c, dt, hec⟩, by rw [← ht2], by rw [← ht2], pre, row, suf, hsplit,
        hmx, hax, hpre, by rw [← ht2, hres]⟩

/-- C4 witness: on a two-row table where only the second row matches, the
first assignment is applied to it and the second aborts the update: the
table keeps the partial mutation. -/
theorem update_abort_not_atomic_witness :
    ∃ t2, Table.update
        ⟨"t", [("a", .CHAR), ("b", .INTEGER)],
          [[("a", .vstr "x"), ("b", .vint 1)], [("a", .vstr "y"), ("b", .vint 2)]]⟩
        [("a", .vstr "z"), ("b", .vstr "bad")]
        (some (wherePred "b" (.vint 2))) = .error (.typeMismatch "b" .INTEGER, t2) := by
  exact (update_abort_not_atomic
      ⟨"t", [("a", .CHAR), ("b", .INTEGER)],
        [[("a", .vstr "x"), ("b", .vint 1)], [("a", .vstr "y"), ("b", .vint 2)]]⟩
      [("a", .vstr "z"), ("b", .vstr "bad")]
      (some (wherePred "b" (.vint 2)))).1
    [("a", .vstr "y"), ("b", .vint 2)] (by decide) (by decide)
    (.typeMismatch "b" .INTEGER) [("a", .vstr "z"), ("b", .vint 2)] (by decide)

/-! ### C8 — the row invariant is preserved -/

/-- `contains` to membership on string lists. -/
theorem contains_mem {l : List String} {c : String} (h : l.contains c = true) :
    c ∈ l := by
  rcases List.contains_iff_exists_mem_beq.mp h with ⟨b, hb, hbeq⟩
  rw [beq_iff_eq.mp hbeq]
  exact hb

/-- Membership to `contains` on string lists. -/
theorem mem_contains {l : List String} {c : String} (h : c ∈ l) :
    l.contains c = true := by
  rw [List.contains_eq_any_beq, List.any_eq_true]
  exact ⟨c, h, beq_iff_eq.mpr rfl⟩

/-- A successful schema lookup is a schema entry. -/
theorem schemaGet_some_mem {schema : Schema} {c : String} {dt : DataType} :
    schemaGet schema c = some dt → (c, dt) ∈ schema := by
  induction schema with
  | nil => intro h; cases h
  | cons p rest ih =>
    intro h
    simp only [schemaGet] at h
    by_cases hc : p.1 = c
    · rw [if_pos hc] at h
      cases h
      rcases p with ⟨c0, dt0⟩
      rw [← hc]
      exact List.mem_cons_self _ _
    · rw [if_neg hc] at h
      exact List.mem_cons_of_mem _ (ih h)

/-- Overwriting an existing key does not change a dict's key list. -/
theorem rowSet_keys_of_mem {r : Row} {c : String} (v : Value)
    (h : c ∈ r.map Prod.fst) :
    (rowSet r c v).map Prod.fst = r.map Prod.fst := by
  induction r with
  | nil => cases h
  | cons p rest ih =>
    by_cases hc : p.1 = c
    · simp [rowSet, hc]
    · have h' : c ∈ rest.map Prod.fst := by
        rw [List.map_cons] at h
        rcases List.mem_cons.mp h with h1 | h2
        · exact absurd h1.symm hc
        · exact h2
      simp [rowSet, hc, ih h']

/-- Overwriting with a validated value keeps the row type-valid. -/
theorem rowTypesOk_rowSet {schema : Schema} {c : String} {v : Value} {dt : DataType}
    (hdt : schemaGet schema c = some dt) (hv : validate_type v dt = true) :
    ∀ {r : Row}, rowTypesOk schema r = true → rowTypesOk schema (rowSet r c v) = true := by
  intro r
  induction r with
  | nil => intro _; simp [rowSet, rowTypesOk, hdt, hv]
  | cons p rest ih =>
    intro hr
    rw [rowTypesOk, List.all_cons, Bool.and_eq_true_iff] at hr
    by_cases hc : p.1 = c
    · rw [rowSet, if_pos hc, rowTypesOk, List.all_cons]
      have hhd : (match schemaGet schema p.1 with
          | some dt => validate_type v dt
          | none => false) = true := by
        rw [hc, hdt]
        exact hv
      rw [hhd]
      exact hr.2
    · rw [rowSet, if_neg hc, rowTypesOk, List.all_cons, hr.1]
      exact ih hr.2

/-- Overwriting a schema column with a validated value preserves the row
invariant. -/
theorem rowWF_rowSet {schema : Schema} {r : Row} {c : String} {v : Value} {dt : DataType}
    (hwf : rowWF schema r = true) (hdt : schemaGet schema c = some dt)
    (hv : validate_type v dt = true) : rowWF schema (rowSet r c v) = true := by
  rw [rowWF, Bool.and_eq_true_iff] at hwf
  obtain ⟨hks, hty⟩ := hwf
  have hcs : c ∈ schema.map Prod.fst :=
    List.mem_map_of_mem Prod.fst (schemaGet_some_mem hdt)
  have hcr : c ∈ r.map Prod.fst := by
    have h2 := (Bool.and_eq_true_iff.mp hks).2
    rw [List.all_eq_true] at h2
    exact contains_mem (h2 c hcs)
  rw [rowWF, rowSet_keys_of_mem v hcr, Bool.and_eq_true_iff]
  exact ⟨hks, rowTypesOk_rowSet hdt hv hty⟩

/-- The assignment loop preserves the row invariant, also when it is
interrupted: every applied assignment was validated and targets a schema
column (which the invariant keeps among the row's keys). -/
theorem rowAfterAssignments_wf {schema : Schema} :
    ∀ {updates : List (String × Value)} {row : Row}, rowWF schema row = true →
      rowWF schema (rowAfterAssignments schema updates row) = true := by
  intro updates
  induction updates with
  | nil =>
    intro row hwf
    simpa [rowAfterAssignments, applyAssignments] using hwf
  | cons p rest ih =>
    intro row hwf
    obtain ⟨c, v⟩ := p
    cases hs : schemaGet schema c with
    | none =>
      have heq : rowAfterAssignments schema ((c, v) :: rest) row =
          rowAfterAssignments schema rest row := by
        simp [rowAfterAssignments, applyAssignments, hs]
      rw [heq]
      exact ih hwf
    | some dt =>
      by_cases hv : validate_type v dt = true
      · have heq : rowAfterAssignments schema ((c, v) :: rest) row =
            rowAfterAssignments schema rest (rowSet row c v) := by
          simp [rowAfterAssignments, applyAssignments, hs, hv]
        rw [heq]
        exact ih (rowWF_rowSet hwf hs hv)
      · have heq : rowAfterAssignments schema ((c, v) :: rest) row = row := by
          simp [rowAfterAssignments, applyAssignments, hs, hv]
        rw [heq]
        exact hwf

/-- Both outcomes of the update row loop contain only invariant-satisfying
rows when the input rows do. -/
theorem updateGo_wf {schema : Schema} {updates : List (String × Value)}
    {wh : Option (Row → Bool)} :
    ∀ {rows : List Row}, (∀ r ∈ rows, rowWF schema r = true) →
      (∀ {n : Nat} {rows2 : List Row}, updateGo schema updates wh rows = .ok (n, rows2) →
        ∀ r ∈ rows2, rowWF schema r = true) ∧
      (∀ {e : PyErr} {rows2 : List Row}, updateGo schema updates wh rows = .error (e, rows2) →
        ∀ r ∈ rows2, rowWF schema r = true) := by
  intro rows
  induction rows with
  | nil =>
    intro _
    constructor
    · intro n rows2 h r hr
      simp only [updateGo, Except.ok.injEq, Prod.mk.injEq] at h
      rw [← h.2] at hr
      cases hr
    · intro e rows2 h
      simp [updateGo] at h
  | cons row rest ih =>
    intro hwf
    have hwrow := hwf row (List.mem_cons_self _ _)
    have hwrest := fun r hr => hwf r (List.mem_cons_of_mem _ hr)
    have ihr := ih hwrest
    constructor
    · intro n rows2 h r hr
      simp only [updateGo] at h
      by_cases hm : matchesWh wh row = true
      · rw [if_pos hm] at h
        cases ha : applyAssignments schema updates row with
        | error pe => rw [ha] at h; cases h
        | ok row2 =>
          rw [ha] at h
          cases hrest : updateGo schema updates wh rest with
          | error pe2 => rw [hrest] at h; cases h
          | ok p2 =>
            obtain ⟨n2, rest2⟩ := p2
            rw [hrest] at h
            simp only [Except.ok.injEq, Prod.mk.injEq] at h
            rw [← h.2] at hr
            rcases List.mem_cons.mp hr with rfl | hr'
            · have : rowAfterAssignments schema updates row = r := by
                rw [rowAfterAssignments, ha]
              rw [← this]
              exact rowAfterAssignments_wf hwrow
            · exact ihr.1 hrest r hr'
      · rw [if_neg hm] at h
        cases hrest : updateGo schema updates wh rest with
        | error pe2 => rw [hrest] at h; cases h
        | ok p2 =>
          obtain ⟨n2, rest2⟩ := p2
          rw [hrest] at h
          simp only [Except.ok.injEq, Prod.mk.injEq] at h
          rw [← h.2] at hr
          rcases List.mem_cons.mp hr with rfl | hr'
          · exact hwrow
          · exact ihr.1 hrest r hr'
    · intro e rows2 h r hr
      simp only [updateGo] at h
      by_cases hm : matchesWh wh row = true
      · rw [if_pos hm] at h
        cases ha : applyAssignments schema updates row with
        | error pe =>
          obtain ⟨e0, row2⟩ := pe
          rw [ha] at h
          simp only [Except.error.injEq, Prod.mk.injEq] at h
          rw [← h.2] at hr
          rcases List.mem_cons.mp hr with rfl | hr'
          · have : rowAfterAssignments schema updates row = r := by
              rw [rowAfterAssignments, ha]
            rw [← this]
            exact rowAfterAssignments_wf hwrow
          · exact hwrest r hr'
        | ok row2 =>
          rw [ha] at h
          cases hrest : updateGo schema updates wh rest with
          | ok p2 => rw [hrest] at h; cases h
          | error pe2 =>
            obtain ⟨e2, rest2⟩ := pe2
            rw [hrest] at h
            simp only [Except.error.injEq, Prod.mk.injEq] at h
            rw [← h.2] at hr
            rcases List.mem_cons.mp hr with rfl | hr'
            · have : rowAfterAssignments schema updates row = r := by
                rw [rowAfterAssignments, ha]
              rw [← this]
              exact rowAfterAssignments_wf hwrow
            · exact ihr.2 hrest r hr'
      · rw [if_neg hm] at h
        cases hrest : updateGo schema updates wh rest with
        | ok p2 => rw [hrest] at h; cases h
        | error pe2 =>
          obtain ⟨e2, rest2⟩ := pe2
          rw [hrest] at h
          simp only [Except.error.injEq, Prod.mk.injEq] at h
          rw [← h.2] at hr
          rcases List.mem_cons.mp hr with rfl | hr'
          · exact hwrow
          · exact ihr.2 hrest r hr'

/-- C8: starting from a table whose rows all satisfy the row invariant,
the invariant still holds for all rows after a successful insert, after a
successful update, after an update that aborts with `TypeMismatch`
(assignments touch only schema columns and every written value was
validated first), and after any delete. -/
theorem engine_preserves_row_invariant (t : Table) (h : t.wf = true) :
    (∀ r t2, t.insert r = .ok t2 → t2.wf = true) ∧
    (∀ updates wh n t2, t.update updates wh = .ok (n, t2) → t2.wf = true) ∧
    (∀ updates wh e t2, t.update updates wh = .error (e, t2) → t2.wf = true) ∧
    (∀ wh, (t.delete wh).2.wf = true) := by
  rw [Table.wf, List.all_eq_true] at h
  refine ⟨?_, ?_, ?_, ?_⟩
  · intro r t2 hins
    rw [Table.insert] at hins
    cases hsk : sameKeySet (r.map Prod.fst) (t.schema.map Prod.fst) with
    | false => rw [if_pos (by rw [hsk])] at hins; cases hins
    | true =>
      rw [if_neg (by rw [hsk]; exact fun hc => Bool.true_eq_false.mp hc)] at hins
      cases hcr : checkRecord t.schema r with
      | error e => rw [hcr] at hins; cases hins
      | ok u =>
        rw [hcr] at hins
        cases hins
        rw [Table.wf, List.all_eq_true]
        intro r2 hr2
        rcases List.mem_append.mp hr2 with hr2' | hr2'
        · exact h r2 hr2'
        · rcases List.mem_singleton.mp hr2' with rfl
          rw [rowWF, hsk, Bool.true_and]
          exact (checkRecord_ok_iff (keys_resolve_of_sameKeySet hsk)).mp hcr
  · intro updates wh n t2 hupd
    rw [Table.update] at hupd
    cases hg : updateGo t.schema updates wh t.rows with
    | error pe => rw [hg] at hupd; cases hupd
    | ok p =>
      obtain ⟨n2, rows2⟩ := p
      rw [hg] at hupd
      simp only [Except.ok.injEq, Prod.mk.injEq] at hupd
      rw [← hupd.2, Table.wf, List.all_eq_true]
      exact (updateGo_wf h).1 hg
  · intro updates wh e t2 hupd
    rw [Table.update] at hupd
    cases hg : updateGo t.schema updates wh t.rows with
    | ok p => rw [hg] at hupd; cases hupd
    | error pe =>
      obtain ⟨e2, rows2⟩ := pe
      rw [hg] at hupd
      simp only [Except.error.injEq, Prod.mk.injEq] at hupd
      rw [← hupd.2, Table.wf, List.all_eq_true]
      exact (updateGo_wf h).2 hg
  · intro wh
    rw [Table.delete, Table.wf, List.all_eq_true]
    intro r hr
    exact h r (List.mem_of_mem_filter hr)

/-- C8 witness: the invariant survives the aborted update of the C4
scenario. -/
theorem engine_preserves_row_invariant_witness :
    Table.wf ⟨"t", [("a", .CHAR), ("b", .INTEGER)],
      [[("a", .vstr "x"), ("b", .vint 1)], [("a", .vstr "z"), ("b", .vint 2)]]⟩ = true := by
  exact (engine_preserves_row_invariant
      ⟨"t", [("a", .CHAR), ("b", .INTEGER)],
        [[("a", .vstr "x"), ("b", .vint 1)], [("a", .vstr "y"), ("b", .vint 2)]]⟩
      (by decide)).2.2.1
    [("a", .vstr "z"), ("b", .vstr "bad")] (some (wherePred "b" (.vint 2)))
    (.typeMismatch "b" .INTEGER)
    ⟨"t", [("a", .CHAR), ("b", .INTEGER)],
      [[("a", .vstr "x"), ("b", .vint 1)], [("a", .vstr "z"), ("b", .vint 2)]]⟩
    (by decide)

/-! ### C6 — save/load round trip for Integer/Float/Char tables -/

/-- Every type tag string parses back to its type. -/
theorem ofString_value (dt : DataType) : DataType.ofString dt.value = some dt := by
  cases dt <;> rfl

/-- Scalar values written by the codec read back unchanged. -/
theorem jsonToValue_valueToJson {v : Value} (h : scalarValue v = true) :
    jsonToValue (valueToJson v) = some v := by
  cases v with
  | vint n => rfl
  | vfloat q => rfl
  | vstr s => rfl
  | vdate y m d => simp [scalarValue] at h
  | vtime a b c => simp [scalarValue] at h
  | vbytes bs => simp [scalarValue] at h

/-- A value validated against a scalar column type is a scalar value. -/
theorem scalarValue_of_validate {v : Value} {dt : DataType}
    (ht : scalarType dt = true) (hv : validate_type v dt = true) :
    scalarValue v = true := by
  cases dt <;> cases v <;> simp_all [scalarType, validate_type, scalarValue]

/-- The schema part of the document decodes back to the schema. -/
theorem mapOption_schema_roundtrip : ∀ schema : Schema,
    mapOption
      (fun p =>
        match p.2 with
        | .jstr tag => (DataType.ofString tag).map (fun dt => (p.1, dt))
        | _ => none)
      (schema.map (fun p => (p.1, Json.jstr p.2.value))) = some schema := by
  intro schema
  induction schema with
  | nil => rfl
  | cons p rest ih =>
    simp [mapOption, ofString_value, ih]

/-- One serialized row decodes back to itself when its values are scalar
(which the row invariant over a scalar schema guarantees). -/
theorem mapOption_row_roundtrip {schema : Schema}
    (hsc : ∀ p ∈ schema, scalarType p.2 = true) :
    ∀ {r : Row}, rowTypesOk schema r = true →
      mapOption (fun p => (jsonToValue p.2).map (fun v => (p.1, v)))
        (r.map (fun p => (p.1, valueToJson p.2))) = some r := by
  intro r
  induction r with
  | nil => intro _; rfl
  | cons p rest ih =>
    intro h
    rw [rowTypesOk, List.all_cons, Bool.and_eq_true_iff] at h
    obtain ⟨hhd, htl⟩ := h
    obtain ⟨c, v⟩ := p
    cases hs : schemaGet schema c with
    | none => rw [hs] at hhd; cases hhd
    | some dt =>
      rw [hs] at hhd
      have hscalar := scalarValue_of_validate (hsc (c, dt) (schemaGet_some_mem hs)) hhd
      simp [mapOption, jsonToValue_valueToJson hscalar, ih htl, rowTypesOk]

/-- The rows part of the document decodes back to the rows. -/
theorem mapOption_rows_roundtrip {schema : Schema}
    (hsc : ∀ p ∈ schema, scalarType p.2 = true) :
    ∀ {rows : List Row}, (∀ r ∈ rows, rowTypesOk schema r = true) →
      mapOption rowFromJson
        (rows.map (fun r => Json.jobj (r.map (fun p => (p.1, valueToJson p.2))))) =
        some rows := by
  intro rows
  induction rows with
  | nil => intro _; rfl
  | cons r rest ih =>
    intro h
    have hr := h r (List.mem_cons_self _ _)
    have hrest := ih (fun r2 hr2 => h r2 (List.mem_cons_of_mem _ hr2))
    simp [mapOption, rowFromJson, mapOption_row_roundtrip hsc hr, hrest]

/-- `from_dict` inverts `to_dict` on a scalar, invariant-satisfying
table. -/
theorem from_dict_to_dict {t : Table} (h : tableScalarOK t = true) :
    Table.from_dict t.to_dict = some t := by
  rw [tableScalarOK, Bool.and_eq_true_iff] at h
  obtain ⟨hsc, hwf⟩ := h
  rw [List.all_eq_true] at hsc
  rw [Table.wf, List.all_eq_true] at hwf
  have hrows : ∀ r ∈ t.rows, rowTypesOk t.schema r = true := by
    intro r hr
    exact (Bool.and_eq_true_iff.mp (hwf r hr)).2
  simp [Table.from_dict, Table.to_dict, jsonGet, mapOption_schema_roundtrip,
    mapOption_rows_roundtrip hsc hrows]

/-- C6: a database whose tables all have only Integer/Float/Char columns
(and rows satisfying the row invariant) is reproduced identically — same
table names, same schemas, same rows in insertion order — by decoding the
document that `save_to_file` writes, as `load_from_file` does. -/
theorem save_load_round_trip (db : Database)
    (h : db.tables.all (fun p => tableScalarOK p.2) = true) :
    Database.loadFromDoc db.to_dict = some db := by
  rw [List.all_eq_true] at h
  have htbls : ∀ tbls : List (String × Table), (∀ p ∈ tbls, tableScalarOK p.2 = true) →
      mapOption (fun p => (Table.from_dict p.2).map (fun t => (p.1, t)))
        (tbls.map (fun p => (p.1, p.2.to_dict))) = some tbls := by
    intro tbls
    induction tbls with
    | nil => intro _; rfl
    | cons p rest ih =>
      intro hall
      have hp := hall p (List.mem_cons_self _ _)
      have hrest := ih (fun q hq => hall q (List.mem_cons_of_mem _ hq))
      simp [mapOption, from_dict_to_dict hp, hrest]
  simp [Database.loadFromDoc, Database.to_dict, jsonGet, htbls db.tables h]

/-- C6 witness: a concrete one-table database with Integer, Char and Float
columns round-trips. -/
theorem save_load_round_trip_witness :
    Database.loadFromDoc
        (Database.to_dict ⟨[("p", ⟨"p", [("id", .INTEGER), ("nm", .CHAR), ("f", .FLOAT)],
          [[("id", .vint 1), ("nm", .vstr "Ann"), ("f", .vfloat (3 / 2))]]⟩)]⟩) =
      some ⟨[("p", ⟨"p", [("id", .INTEGER), ("nm", .CHAR), ("f", .FLOAT)],
        [[("id", .vint 1), ("nm", .vstr "Ann"), ("f", .vfloat (3 / 2))]]⟩)]⟩ := by
  exact save_load_round_trip
    ⟨[("p", ⟨"p", [("id", .INTEGER), ("nm", .CHAR), ("f", .FLOAT)],
      [[("id", .vint 1), ("nm", .vstr "Ann"), ("f", .vfloat (3 / 2))]]⟩)]⟩
    (by decide)

/-! ### C10 — ORDER BY on a column missing from the projection -/

/-- Setting a different key leaves a lookup unchanged. -/
theorem rowGet_rowSet_ne {c c0 : String} (hne : c ≠ c0) (v : Value) :
    ∀ acc : Row, rowGet (rowSet acc c0 v) c = rowGet acc c := by
  intro acc
  induction acc with
  | nil =>
    have hnc : ¬c0 = c := fun h => hne h.symm
    simp [rowSet, rowGet, hnc]
  | cons p rest ih =>
    obtain ⟨pc, pv⟩ := p
    by_cases hp : pc = c0
    · have hnc : ¬pc = c := fun h => hne (h.symm.trans hp)
      rw [rowSet, if_pos hp, rowGet, if_neg hnc, rowGet, if_neg hnc]
    · rw [rowSet, if_neg hp, rowGet, rowGet]
      by_cases hc : pc = c
      · rw [if_pos hc, if_pos hc]
      · rw [if_neg hc, if_neg hc]
        exact ih

/-- The projection loop never introduces a column outside the requested
list. -/
theorem projectGo_rowGet_not_mem {row : Row} {c : String} :
    ∀ {cols : List String} {acc out : Row}, c ∉ cols →
      projectGo row cols acc = .ok out → rowGet out c = rowGet acc c := by
  intro cols
  induction cols with
  | nil =>
    intro acc out _ h
    simp only [projectGo, Except.ok.injEq] at h
    rw [h]
  | cons c0 cs ih =>
    intro acc out hnotin h
    have hne : c ≠ c0 := fun hc => hnotin (hc ▸ List.mem_cons_self _ _)
    have hnotin' : c ∉ cs := fun hc => hnotin (List.mem_cons_of_mem _ hc)
    simp only [projectGo] at h
    cases hg : rowGet row c0 with
    | none => rw [hg] at h; cases h
    | some v =>
      rw [hg] at h
      rw [ih hnotin' h, rowGet_rowSet_ne hne]

/-- A projected row has no value at a column outside the requested list. -/
theorem projectRow_rowGet_not_mem {cols : List String} {row pr : Row} {c : String}
    (hnotin : c ∉ cols) (h : projectRow cols row = .ok pr) :
    rowGet pr c = none :=
  projectGo_rowGet_not_mem hnotin h

/-- A successful sort pass permutes its input. -/
theorem sortPass_ok_perm {col : String} {rev : Bool} {rows out : List Row}
    (h : sortPass col rev rows = .ok out) : rows.Perm out := by
  cases hk : mapExcept (fun x => sortKeyOf x col) rows with
  | error e =>
    simp only [sortPass, hk] at h
    exact Except.noConfusion h
  | ok keys =>
    simp only [sortPass, hk] at h
    by_cases hc : allSameClass keys = true
    · rw [if_pos hc] at h
      simp only [Except.ok.injEq] at h
      rw [← h]
      exact (List.mergeSort_perm rows _).symm
    · rw [if_neg hc] at h
      cases h

/-- A successful sort pass saw a key in every row. -/
theorem sortPass_ok_keys {col : String} {rev : Bool} {rows out : List Row}
    (h : sortPass col rev rows = .ok out) :
    ∀ r ∈ rows, (rowGet r col).isSome = true := by
  cases hk : mapExcept (fun x => sortKeyOf x col) rows with
  | error e =>
    simp only [sortPass, hk] at h
    exact Except.noConfusion h
  | ok keys =>
    intro r hr
    rcases mapExcept_ok_forall hk r hr with ⟨v, _, hv⟩
    rw [sortKeyOf] at hv
    cases hg : rowGet r col with
    | none => rw [hg] at hv; cases hv
    | some v2 => rfl

/-- A successful ORDER BY application permutes its input. -/
theorem applyOrderBy_ok_perm :
    ∀ {ob : List OrderKey} {rows out : List Row},
      applyOrderBy ob rows = .ok out → rows.Perm out := by
  intro ob
  induction ob with
  | nil =>
    intro rows out h
    simp only [applyOrderBy, Except.ok.injEq] at h
    rw [h]
  | cons k ks ih =>
    intro rows out h
    simp only [applyOrderBy] at h
    cases hm : applyOrderBy ks rows with
    | error e => rw [hm] at h; cases h
    | ok mid =>
      rw [hm] at h
      exact (ih hm).trans (sortPass_ok_perm h)

/-- A successful ORDER BY application found every ordering column in every
row. -/
theorem applyOrderBy_ok_keys :
    ∀ {ob : List OrderKey} {rows out : List Row},
      applyOrderBy ob rows = .ok out →
      ∀ k ∈ ob, ∀ r ∈ rows, (rowGet r k.column).isSome = true := by
  intro ob
  induction ob with
  | nil => intro rows out _ k hk; cases hk
  | cons k0 ks ih =>
    intro rows out h k hk r hr
    simp only [applyOrderBy] at h
    cases hm : applyOrderBy ks rows with
    | error e => rw [hm] at h; cases h
    | ok mid =>
      rw [hm] at h
      rcases List.mem_cons.mp hk with rfl | hk'
      · exact sortPass_ok_keys h r ((applyOrderBy_ok_perm hm).mem_iff.mp hr)
      · exact ih hm k hk' r hr

/-- C10: when the ORDER BY list names a column that is not among the
requested (hence projected) columns and at least one row survives the
predicate, the sort-key lookup fails and `select` raises instead of
returning results; `handle_select` catches the exception and prints a
single diagnostic line, with no result rows output. -/
theorem order_by_unprojected_column_errors (db : Database) (nm : String) (t : Table)
    (columns : Option (List String)) (wh : Option (Row → Bool)) (ob : List OrderKey)
    (k : OrderKey) (base : List Row)
    (htab : findTable db nm = some t)
    (hk : k ∈ ob)
    (hmiss : k.column ∉ effectiveCols t columns)
    (hbase : t.selectBase columns wh = .ok base)
    (hne : base ≠ []) :
    ∃ e, t.select columns wh (some ob) = .error e ∧
      handleSelectExec db nm columns wh (some ob) = ["Error: " ++ pyExcStr e] := by
  have hobne : ob.isEmpty = false := by
    cases ob with
    | nil => cases hk
    | cons a l => rfl
  rw [Table.selectBase] at hbase
  have hbase_missing : ∀ pr ∈ base, rowGet pr k.column = none := by
    intro pr hpr
    rcases mapExcept_ok_mem hbase pr hpr with ⟨row, _, hrow⟩
    exact projectRow_rowGet_not_mem hmiss hrow
  have herr : ∃ e, applyOrderBy ob base = .error e := by
    cases hap : applyOrderBy ob base with
    | error e => exact ⟨e, rfl⟩
    | ok out =>
      rcases base with _ | ⟨r0, rest⟩
      · exact absurd rfl hne
      · have := applyOrderBy_ok_keys hap k hk r0 (List.mem_cons_self _ _)
        rw [hbase_missing r0 (List.mem_cons_self _ _)] at this
        cases this
  rcases herr with ⟨e, he⟩
  have hsel : t.select columns wh (some ob) = .error e := by
    have hbase2 : t.selectBase columns wh = .ok base := hbase
    simp [Table.select, hbase2, hobne, he]
  refine ⟨e, hsel, ?_⟩
  simp only [handleSelectExec, htab, hsel]

/-- C10 witness: ordering by `b` after projecting only `a`. -/
theorem order_by_unprojected_column_errors_witness :
    ∃ e, Table.select ⟨"t", [("a", .INTEGER), ("b", .INTEGER)],
        [[("a", .vint 1), ("b", .vint 2)]]⟩ (some ["a"]) none
        (some [⟨"b", "ASC"⟩]) = .error e ∧
      handleSelectExec
        ⟨[("t", ⟨"t", [("a", .INTEGER), ("b", .INTEGER)],
          [[("a", .vint 1), ("b", .vint 2)]]⟩)]⟩ "t" (some ["a"]) none
        (some [⟨"b", "ASC"⟩]) = ["Error: " ++ pyExcStr e] := by
  exact order_by_unprojected_column_errors
    ⟨[("t", ⟨"t", [("a", .INTEGER), ("b", .INTEGER)],
      [[("a", .vint 1), ("b", .vint 2)]]⟩)]⟩ "t"
    ⟨"t", [("a", .INTEGER), ("b", .INTEGER)], [[("a", .vint 1), ("b", .vint 2)]]⟩
    (some ["a"]) none [⟨"b", "ASC"⟩] ⟨"b", "ASC"⟩ [[("a", .vint 1)]]
    (by decide) (List.mem_cons_self _ _) (by decide) (by decide)
    (by decide)

/-! ### C2 — multi-key ORDER BY: stable passes from last key to first -/

theorem natTripleLe_total (a1 a2 a3 b1 b2 b3 : Nat) :
    natTripleLe a1 a2 a3 b1 b2 b3 = true ∨ natTripleLe b1 b2 b3 a1 a2 a3 = true := by
  simp only [natTripleLe, Bool.or_eq_true, Bool.and_eq_true, decide_eq_true_eq]
  omega

theorem natTripleLe_trans {a1 a2 a3 b1 b2 b3 c1 c2 c3 : Nat}
    (h1 : natTripleLe a1 a2 a3 b1 b2 b3 = true)
    (h2 : natTripleLe b1 b2 b3 c1 c2 c3 = true) :
    natTripleLe a1 a2 a3 c1 c2 c3 = true := by
  simp only [natTripleLe, Bool.or_eq_true, Bool.and_eq_true, decide_eq_true_eq] at h1 h2 ⊢
  omega

theorem natTripleLe_refl (a1 a2 a3 : Nat) : natTripleLe a1 a2 a3 a1 a2 a3 = true := by
  simp [natTripleLe]

theorem charListLe_total : ∀ xs ys : List Char,
    charListLe xs ys = true ∨ charListLe ys xs = true := by
  intro xs
  induction xs with
  | nil => intro ys; left; rfl
  | cons a as ih =>
    intro ys
    cases ys with
    | nil => right; rfl
    | cons b bs =>
      simp only [charListLe]
      rcases Nat.lt_trichotomy a.toNat b.toNat with h | h | h
      · left; simp [h]
      · have h2 : ¬ a.toNat < b.toNat := by omega
        have h3 : ¬ b.toNat < a.toNat := by omega
        simp only [if_neg h2, if_neg h3]
        exact ih bs
      · right; simp [h]

theorem charListLe_trans : ∀ {xs ys zs : List Char},
    charListLe xs ys = true → charListLe ys zs = true → charListLe xs zs = true := by
  intro xs
  induction xs with
  | nil => intro ys zs _ _; rfl
  | cons a as ih =>
    intro ys zs h1 h2
    cases ys with
    | nil => simp [charListLe] at h1
    | cons b bs =>
      cases zs with
      | nil => simp [charListLe] at h2
      | cons c cs =>
        simp only [charListLe] at h1 h2 ⊢
        by_cases hab : a.toNat < b.toNat <;> by_cases hbc : b.toNat < c.toNat
        · simp [show a.toNat < c.toNat by omega]
        · rw [if_neg hbc] at h2
          by_cases hcb : c.toNat < b.toNat
          · rw [if_pos hcb] at h2; cases h2
          · have : a.toNat < c.toNat := by omega
            simp [this]
        · rw [if_pos hbc] at h2
          rw [if_neg hab] at h1
          by_cases hba : b.toNat < a.toNat
          · rw [if_pos hba] at h1; cases h1
          · have : a.toNat < c.toNat := by omega
            simp [this]
        · rw [if_neg hab] at h1
          rw [if_neg hbc] at h2
          by_cases hba : b.toNat < a.toNat
          · rw [if_pos hba] at h1; cases h1
          · by_cases hcb : c.toNat < b.toNat
            · rw [if_pos hcb] at h2; cases h2
            · have hac1 : ¬ a.toNat < c.toNat := by omega
              have hac2 : ¬ c.toNat < a.toNat := by omega
              rw [if_neg hba] at h1
              rw [if_neg hcb] at h2
              rw [if_neg hac1, if_neg hac2]
              exact ih h1 h2

theorem charListLe_refl : ∀ xs : List Char, charListLe xs xs = true := by
  intro xs
  induction xs with
  | nil => rfl
  | cons a as ih => simp [charListLe, ih]

theorem natListLe_total : ∀ xs ys : List Nat,
    natListLe xs ys = true ∨ natListLe ys xs = true := by
  intro xs
  induction xs with
  | nil => intro ys; left; rfl
  | cons a as ih =>
    intro ys
    cases ys with
    | nil => right; rfl
    | cons b bs =>
      simp only [natListLe]
      rcases Nat.lt_trichotomy a b with h | h | h
      · left; simp [h]
      · have h2 : ¬ a < b := by omega
        have h3 : ¬ b < a := by omega
        simp only [if_neg h2, if_neg h3]
        exact ih bs
      · right; simp [h]

theorem natListLe_trans : ∀ {xs ys zs : List Nat},
    natListLe xs ys = true → natListLe ys zs = true → natListLe xs zs = true := by
  intro xs
  induction xs with
  | nil => intro ys zs _ _; rfl
  | cons a as ih =>
    intro ys zs h1 h2
    cases ys with
    | nil => simp [natListLe] at h1
    | cons b bs =>
      cases zs with
      | nil => simp [natListLe] at h2
      | cons c cs =>
        simp only [natListLe] at h1 h2 ⊢
        by_cases hab : a < b <;> by_cases hbc : b < c
        · simp [show a < c by omega]
        · rw [if_neg hbc] at h2
          by_cases hcb : c < b
          · rw [if_pos hcb] at h2; cases h2
          · simp [show a < c by omega]
        · rw [if_pos hbc] at h2
          rw [if_neg hab] at h1
          by_cases hba : b < a
          · rw [if_pos hba] at h1; cases h1
          · simp [show a < c by omega]
        · rw [if_neg hab] at h1
          rw [if_neg hbc] at h2
          by_cases hba : b < a
          · rw [if_pos hba] at h1; cases h1
          · by_cases hcb : c < b
            · rw [if_pos hcb] at h2; cases h2
            · have hac1 : ¬ a < c := by omega
              have hac2 : ¬ c < a := by omega
              rw [if_neg hba] at h1
              rw [if_neg hcb] at h2
              rw [if_neg hac1, if_neg hac2]
              exact ih h1 h2

theorem natListLe_refl : ∀ xs : List Nat, natListLe xs xs = true := by
  intro xs
  induction xs with
  | nil => rfl
  | cons a as ih => simp [natListLe, ih]

theorem sameClassLe_total : ∀ a b : Value, a.classIdx = b.classIdx →
    sameClassLe a b = true ∨ sameClassLe b a = true := by
  intro a b h
  cases a <;> cases b <;>
    simp only [Value.classIdx] at h <;>
    first
    | omega
    | (simp only [sameClassLe, decide_eq_true_eq]
       first
       | exact le_total _ _
       | exact charListLe_total _ _
       | exact natTripleLe_total _ _ _ _ _ _
       | exact natListLe_total _ _)

theorem sameClassLe_trans : ∀ a b c : Value, a.classIdx = b.classIdx →
    b.classIdx = c.classIdx → sameClassLe a b = true → sameClassLe b c = true →
    sameClassLe a c = true := by
  intro a b c hab hbc h1 h2
  cases a <;> cases b <;> cases c <;>
    simp only [Value.classIdx] at hab hbc <;>
    first
    | omega
    | (simp only [sameClassLe, decide_eq_true_eq, Value.toRatD] at h1 h2 ⊢
       first
       | exact le_trans h1 h2
       | exact charListLe_trans h1 h2
       | exact natTripleLe_trans h1 h2
       | exact natListLe_trans h1 h2)

theorem sameClassLe_refl : ∀ a : Value, sameClassLe a a = true := by
  intro a
  cases a <;>
    simp only [sameClassLe, decide_eq_true_eq] <;>
    first
    | exact le_refl _
    | exact charListLe_refl _
    | exact natTripleLe_refl _ _ _
    | exact natListLe_refl _

theorem valueLe_total (a b : Value) : valueLe a b = true ∨ valueLe b a = true := by
  unfold valueLe
  rcases Nat.lt_trichotomy a.classIdx b.classIdx with h | h | h
  · left; simp [h]
  · have h1 : ¬ a.classIdx < b.classIdx := by omega
    have h2 : ¬ b.classIdx < a.classIdx := by omega
    simp only [if_neg h1, if_neg h2]
    exact sameClassLe_total a b h
  · right; simp [h]

theorem valueLe_trans {a b c : Value} (h1 : valueLe a b = true)
    (h2 : valueLe b c = true) : valueLe a c = true := by
  unfold valueLe at h1 h2 ⊢
  by_cases hab : a.classIdx < b.classIdx <;> by_cases hbc : b.classIdx < c.classIdx
  · simp [show a.classIdx < c.classIdx by omega]
  · rw [if_neg hbc] at h2
    by_cases hcb : c.classIdx < b.classIdx
    · rw [if_pos hcb] at h2; cases h2
    · simp [show a.classIdx < c.classIdx by omega]
  · rw [if_neg hab] at h1
    by_cases hba : b.classIdx < a.classIdx
    · rw [if_pos hba] at h1; cases h1
    · simp [show a.classIdx < c.classIdx by omega]
  · rw [if_neg hab] at h1
    rw [if_neg hbc] at h2
    by_cases hba : b.classIdx < a.classIdx
    · rw [if_pos hba] at h1; cases h1
    · by_cases hcb : c.classIdx < b.classIdx
      · rw [if_pos hcb] at h2; cases h2
      · have hac1 : ¬ a.classIdx < c.classIdx := by omega
        have hac2 : ¬ c.classIdx < a.classIdx := by omega
        rw [if_neg hba] at h1
        rw [if_neg hcb] at h2
        rw [if_neg hac1, if_neg hac2]
        exact sameClassLe_trans a b c (by omega) (by omega) h1 h2

theorem valueLe_refl (a : Value) : valueLe a a = true := by
  unfold valueLe
  simp [sameClassLe_refl]

theorem optValueLe_total (a b : Option Value) :
    optValueLe a b = true ∨ optValueLe b a = true := by
  cases a with
  | none => left; rfl
  | some v =>
    cases b with
    | none => right; rfl
    | some w => exact valueLe_total v w

theorem optValueLe_trans {a b c : Option Value} (h1 : optValueLe a b = true)
    (h2 : optValueLe b c = true) : optValueLe a c = true := by
  cases a with
  | none => rfl
  | some v =>
    cases b with
    | none => cases h1
    | some w =>
      cases c with
      | none => cases h2
      | some u => exact valueLe_trans h1 h2

theorem optValueLe_refl (a : Option Value) : optValueLe a a = true := by
  cases a with
  | none => rfl
  | some v => exact valueLe_refl v

theorem keyLe_total (col : String) (rev : Bool) (x y : Row) :
    keyLe col rev x y = true ∨ keyLe col rev y x = true := by
  unfold keyLe
  cases rev with
  | false =>
    simp only [if_neg (Bool.false_ne_true)]
    exact optValueLe_total _ _
  | true =>
    simp only [if_pos rfl]
    exact (optValueLe_total _ _)

theorem keyLe_trans {col : String} {rev : Bool} {x y z : Row}
    (h1 : keyLe col rev x y = true) (h2 : keyLe col rev y z = true) :
    keyLe col rev x z = true := by
  unfold keyLe at h1 h2 ⊢
  cases rev with
  | false =>
    simp only [if_neg (Bool.false_ne_true)] at h1 h2 ⊢
    exact optValueLe_trans h1 h2
  | true =>
    simp only [if_pos rfl] at h1 h2 ⊢
    exact optValueLe_trans h2 h1

theorem keyLe_of_rowGet_eq {col : String} (rev : Bool) {x y : Row}
    (h : rowGet x col = rowGet y col) : keyLe col rev x y = true := by
  unfold keyLe
  rw [h]
  cases rev with
  | false => simp [optValueLe_refl]
  | true => simp [optValueLe_refl]

theorem pair_sublist_cases {α : Type} {x y : α} (hne : x ≠ y) :
    ∀ {l : List α}, x ∈ l → y ∈ l → [x, y].Sublist l ∨ [y, x].Sublist l := by
  intro l
  induction l with
  | nil => intro hx _; cases hx
  | cons a t ih =>
    intro hx hy
    rcases List.mem_cons.mp hx with rfl | hx'
    · have hy' : y ∈ t := by
        rcases List.mem_cons.mp hy with rfl | hy'
        · exact absurd rfl hne
        · exact hy'
      left
      exact (List.singleton_sublist.mpr hy').cons₂ x
    · rcases List.mem_cons.mp hy with rfl | hy'
      · right
        exact (List.singleton_sublist.mpr hx').cons₂ y
      · rcases ih hx' hy' with h | h
        · exact Or.inl (h.cons a)
        · exact Or.inr (h.cons a)

theorem nodup_pair_sublist {α : Type} :
    ∀ {l : List α} {x y : α}, l.Nodup → [x, y].Sublist l → [y, x].Sublist l → x = y := by
  intro l
  induction l with
  | nil => intro x y _ h _; cases h
  | cons a t ih =>
    intro x y hnd h1 h2
    have hat : a ∉ t := (List.nodup_cons.mp hnd).1
    have hndt : t.Nodup := (List.nodup_cons.mp hnd).2
    cases h1 with
    | cons _ h1' =>
      cases h2 with
      | cons _ h2' => exact ih hndt h1' h2'
      | cons₂ _ h2' =>
        exact absurd (h1'.subset (List.mem_cons_of_mem x (List.mem_cons_self a []))) hat
    | cons₂ _ h1' =>
      cases h2 with
      | cons _ h2' =>
        exact absurd (h2'.subset (List.mem_cons_of_mem y (List.mem_cons_self a []))) hat
      | cons₂ _ h2' => rfl

theorem single_sublist_enumFrom {α : Type} {a : α} :
    ∀ {l : List α} (n : Nat), [a].Sublist l →
      ∃ i, [(i, a)].Sublist (l.enumFrom n) := by
  intro l
  induction l with
  | nil => intro n h; cases h
  | cons b t ih =>
    intro n h
    cases h with
    | cons _ h' =>
      rcases ih (n + 1) h' with ⟨i, hi⟩
      exact ⟨i, by rw [List.enumFrom_cons]; exact hi.cons (n, b)⟩
    | cons₂ _ h' =>
      exact ⟨n, by rw [List.enumFrom_cons]; exact (List.nil_sublist _).cons₂ (n, a)⟩

theorem pair_sublist_enumFrom {α : Type} {a b : α} :
    ∀ {l : List α} (n : Nat), [a, b].Sublist l →
      ∃ x y : Nat × α, x.2 = a ∧ y.2 = b ∧ [x, y].Sublist (l.enumFrom n) := by
  intro l
  induction l with
  | nil => intro n h; cases h
  | cons c t ih =>
    intro n h
    cases h with
    | cons _ h' =>
      rcases ih (n + 1) h' with ⟨x, y, hx, hy, hxy⟩
      exact ⟨x, y, hx, hy, by rw [List.enumFrom_cons]; exact hxy.cons (n, c)⟩
    | cons₂ _ h' =>
      rcases single_sublist_enumFrom (n + 1) h' with ⟨i, hi⟩
      exact ⟨(n, a), (i, b), rfl, rfl, by rw [List.enumFrom_cons]; exact hi.cons₂ (n, a)⟩

theorem enumFrom_nodup {α : Type} : ∀ (l : List α) (n : Nat), (l.enumFrom n).Nodup := by
  intro l n
  apply List.Nodup.of_map Prod.fst
  rw [List.enumFrom_map_fst]
  exact List.nodup_range' _ _

theorem ikeyLe_trans (k : OrderKey) : ∀ a b c : Nat × Row,
    ikeyLe k a b → ikeyLe k b c → ikeyLe k a c :=
  fun _ _ _ h1 h2 => keyLe_trans h1 h2

theorem ikeyLe_total (k : OrderKey) : ∀ a b : Nat × Row,
    ikeyLe k a b || ikeyLe k b a := by
  intro a b
  rcases keyLe_total k.column (k.direction == "DESC") a.2 b.2 with h | h <;>
    simp [ikeyLe, h]

theorem lexLeB_refl : ∀ (ob : List OrderKey) (x : Row), lexLeB ob x x = true := by
  intro ob x
  induction ob with
  | nil => rfl
  | cons k ks ih => simp [lexLeB, ih]

theorem isortPasses_perm : ∀ (ob : List OrderKey) (L : List (Nat × Row)),
    (isortPasses ob L).Perm L := by
  intro ob L
  induction ob with
  | nil => exact List.Perm.refl L
  | cons k ks ih => exact (List.mergeSort_perm (isortPasses ks L) (ikeyLe k)).trans ih

theorem isort_sorted_stable (ob : List OrderKey) :
    ∀ L : List (Nat × Row), L.Nodup →
      List.Pairwise (fun x y => lexLeB ob x.2 y.2 = true) (isortPasses ob L) ∧
      (∀ x y : Nat × Row, [x, y].Sublist L → tiedAllB ob x.2 y.2 = true →
        [x, y].Sublist (isortPasses ob L)) := by
  induction ob with
  | nil =>
    intro L _
    constructor
    · exact List.pairwise_iff_forall_sublist.mpr (fun _ => rfl)
    · intro x y h _
      exact h
  | cons k ks ih =>
    intro L hnd
    have hL' := ih L hnd
    have hndL' : (isortPasses ks L).Nodup := (isortPasses_perm ks L).symm.nodup hnd
    have hsorted : ((isortPasses ks L).mergeSort (ikeyLe k)).Pairwise
        (fun x y => ikeyLe k x y = true) :=
      List.sorted_mergeSort (ikeyLe_trans k) (ikeyLe_total k) (isortPasses ks L)
    have hndM : ((isortPasses ks L).mergeSort (ikeyLe k)).Nodup :=
      (List.mergeSort_perm (isortPasses ks L) (ikeyLe k)).symm.nodup hndL'
    constructor
    · refine List.pairwise_iff_forall_sublist.mpr ?_
      intro x y hxy
      have hkxy : keyLe k.column (k.direction == "DESC") x.2 y.2 = true :=
        List.pairwise_iff_forall_sublist.mp hsorted hxy
      by_cases hyx : keyLe k.column (k.direction == "DESC") y.2 x.2 = true
      · by_cases hxyeq : x = y
        · subst hxyeq
          exact lexLeB_refl _ _
        · have hxM : x ∈ (isortPasses ks L).mergeSort (ikeyLe k) :=
            hxy.subset (List.mem_cons_self _ _)
          have hyM : y ∈ (isortPasses ks L).mergeSort (ikeyLe k) :=
            hxy.subset (List.mem_cons_of_mem _ (List.mem_cons_self _ _))
          have hxL : x ∈ isortPasses ks L :=
            (List.mergeSort_perm (isortPasses ks L) (ikeyLe k)).subset hxM
          have hyL : y ∈ isortPasses ks L :=
            (List.mergeSort_perm (isortPasses ks L) (ikeyLe k)).subset hyM
          rcases pair_sublist_cases hxyeq hxL hyL with hs | hs
          · have hlex : lexLeB ks x.2 y.2 = true :=
              List.pairwise_iff_forall_sublist.mp hL'.1 hs
            simp [lexLeB, hkxy, hyx, hlex]
          · have hyxM : [y, x].Sublist ((isortPasses ks L).mergeSort (ikeyLe k)) :=
              List.pair_sublist_mergeSort (ikeyLe_trans k) (ikeyLe_total k) hyx hs
            exact absurd (nodup_pair_sublist hndM hxy hyxM) hxyeq
      · have hyx' : keyLe k.column (k.direction == "DESC") y.2 x.2 = false :=
          Bool.eq_false_iff.mpr hyx
        simp [lexLeB, hkxy, hyx']
    · intro x y hxyL htied
      rw [tiedAllB, List.all_cons, Bool.and_eq_true_iff] at htied
      have htk : rowGet x.2 k.column = rowGet y.2 k.column := beq_iff_eq.mp htied.1
      have hs := hL'.2 x y hxyL htied.2
      have hle : ikeyLe k x y = true := keyLe_of_rowGet_eq _ htk
      exact List.pair_sublist_mergeSort (ikeyLe_trans k) (ikeyLe_total k) hle hs

theorem allSameClass_int {keys : List Value}
    (h : ∀ v ∈ keys, ∃ n : Int, v = .vint n) : allSameClass keys = true := by
  cases keys with
  | nil => rfl
  | cons v vs =>
    rw [allSameClass, List.all_eq_true]
    intro w hw
    rcases h v (List.mem_cons_self _ _) with ⟨n, hn⟩
    rcases h w (List.mem_cons_of_mem _ hw) with ⟨m, hm⟩
    subst hn hm
    exact decide_eq_true_eq.mpr rfl

theorem sortPass_int_ok {c : String} {rev : Bool} {rows : List Row}
    (h : ∀ r ∈ rows, ∃ n : Int, rowGet r c = some (.vint n)) :
    sortPass c rev rows = .ok (rows.mergeSort (keyLe c rev)) := by
  have hok : ∀ r ∈ rows, ∃ v, sortKeyOf r c = .ok v := by
    intro r hr
    rcases h r hr with ⟨n, hn⟩
    exact ⟨.vint n, by rw [sortKeyOf, hn]⟩
  rcases mapExcept_ok_of_forall hok with ⟨keys, hkeys⟩
  have hint : ∀ v ∈ keys, ∃ n : Int, v = .vint n := by
    intro v hv
    rcases mapExcept_ok_mem hkeys v hv with ⟨r, hr, hfv⟩
    rcases h r hr with ⟨n, hn⟩
    rw [sortKeyOf, hn] at hfv
    cases hfv
    exact ⟨n, rfl⟩
  simp [sortPass, hkeys, allSameClass_int hint]

theorem intKeyedB_spec {ob : List OrderKey} {rows : List Row}
    (h : intKeyedB ob rows = true) :
    ∀ k ∈ ob, ∀ r ∈ rows, ∃ n : Int, rowGet r k.column = some (.vint n) := by
  intro k hk r hr
  have h1 := List.all_eq_true.mp h k hk
  have h2 := List.all_eq_true.mp h1 r hr
  cases hg : rowGet r k.column with
  | none => simp only [hg] at h2; exact absurd h2 (by decide)
  | some v =>
    cases v with
    | vint n => exact ⟨n, rfl⟩
    | vfloat q => simp only [hg] at h2; exact absurd h2 (by decide)
    | vstr s => simp only [hg] at h2; exact absurd h2 (by decide)
    | vdate y m d => simp only [hg] at h2; exact absurd h2 (by decide)
    | vtime a b c2 => simp only [hg] at h2; exact absurd h2 (by decide)
    | vbytes bs => simp only [hg] at h2; exact absurd h2 (by decide)

theorem mergeSort_map_snd (k : OrderKey) (L : List (Nat × Row)) :
    (L.mergeSort (ikeyLe k)).map Prod.snd =
      (L.map Prod.snd).mergeSort (keyLe k.column (k.direction == "DESC")) :=
  List.map_mergeSort (fun _ _ _ _ => rfl)

theorem applyOrderBy_eq_isort : ∀ {ob : List OrderKey} {rows : List Row},
    (∀ k ∈ ob, ∀ r ∈ rows, ∃ n : Int, rowGet r k.column = some (.vint n)) →
    applyOrderBy ob rows = .ok ((isortPasses ob rows.enum).map Prod.snd) := by
  intro ob
  induction ob with
  | nil =>
    intro rows _
    rw [show (isortPasses [] rows.enum).map Prod.snd = rows from
      List.enumFrom_map_snd 0 rows]
    rfl
  | cons k ks ih =>
    intro rows h
    have hmid := ih (fun kk hkk => h kk (List.mem_cons_of_mem _ hkk))
    have hmem : ∀ r ∈ (isortPasses ks rows.enum).map Prod.snd, r ∈ rows := by
      intro r hr
      have h2 := (isortPasses_perm ks rows.enum).map Prod.snd
      rw [List.enum_eq_enumFrom, List.enumFrom_map_snd] at h2
      exact h2.subset hr
    have hkon : ∀ r ∈ (isortPasses ks rows.enum).map Prod.snd,
        ∃ n : Int, rowGet r k.column = some (.vint n) :=
      fun r hr => h k (List.mem_cons_self _ _) r (hmem r hr)
    have hpass : sortPass k.column (k.direction == "DESC")
        ((isortPasses ks rows.enum).map Prod.snd) =
        .ok (((isortPasses ks rows.enum).map Prod.snd).mergeSort
          (keyLe k.column (k.direction == "DESC"))) :=
      sortPass_int_ok hkon
    simp only [applyOrderBy, hmid]
    rw [hpass, show isortPasses (k :: ks) rows.enum =
      (isortPasses ks rows.enum).mergeSort (ikeyLe k) from rfl, mergeSort_map_snd]

/-- The spec's concrete example, pass by pass: each pass's input is
already sorted for its comparator, so the stable sort leaves it
unchanged. -/
theorem applyOrderBy_example :
    applyOrderBy [⟨"a", "ASC"⟩, ⟨"b", "DESC"⟩]
      [[("a", Value.vint 1), ("b", Value.vint 2)], [("a", Value.vint 1), ("b", Value.vint 1)],
       [("a", Value.vint 2), ("b", Value.vint 1)]] =
    .ok [[("a", Value.vint 1), ("b", Value.vint 2)], [("a", Value.vint 1), ("b", Value.vint 1)],
         [("a", Value.vint 2), ("b", Value.vint 1)]] := by
  have hb : List.Pairwise (fun x y => keyLe "b" (("DESC" : String) == "DESC") x y = true)
      [[("a", Value.vint 1), ("b", Value.vint 2)], [("a", Value.vint 1), ("b", Value.vint 1)],
       [("a", Value.vint 2), ("b", Value.vint 1)]] := by decide
  have ha : List.Pairwise (fun x y => keyLe "a" (("ASC" : String) == "DESC") x y = true)
      [[("a", Value.vint 1), ("b", Value.vint 2)], [("a", Value.vint 1), ("b", Value.vint 1)],
       [("a", Value.vint 2), ("b", Value.vint 1)]] := by decide
  show sortPass "a" (("ASC" : String) == "DESC")
      (List.mergeSort
        [[("a", Value.vint 1), ("b", Value.vint 2)], [("a", Value.vint 1), ("b", Value.vint 1)],
         [("a", Value.vint 2), ("b", Value.vint 1)]]
        (keyLe "b" (("DESC" : String) == "DESC"))) = _
  rw [List.mergeSort_of_sorted hb]
  show Except.ok
      (List.mergeSort
        [[("a", Value.vint 1), ("b", Value.vint 2)], [("a", Value.vint 1), ("b", Value.vint 1)],
         [("a", Value.vint 2), ("b", Value.vint 1)]]
        (keyLe "a" (("ASC" : String) == "DESC"))) = _
  rw [List.mergeSort_of_sorted ha]

/-- C2: with a non-empty ORDER BY whose keys are integer-valued on every
surviving projected row, `select` succeeds, and its output is a permutation
of the projected surviving rows that is sorted by the lexicographic
combination of the ordering keys (each ascending unless marked DESC) in
which rows tied on every ordering key keep their original relative order —
the net effect of one stable sort pass per key applied from the last key to
the first, which is how `applyOrderBy` is defined.  The second conjunct
checks the spec's concrete example. -/
theorem select_order_by_stable_lex :
    (∀ (t : Table) (columns : Option (List String)) (wh : Option (Row → Bool))
        (ob : List OrderKey) (base : List Row),
      t.selectBase columns wh = .ok base → ob ≠ [] → intKeyedB ob base = true →
      ∃ out, t.select columns wh (some ob) = .ok out ∧
        out.Perm base ∧
        List.Pairwise (fun x y => lexLeB ob x y = true) out ∧
        (∀ x y : Row, [x, y].Sublist base → tiedAllB ob x y = true →
          [x, y].Sublist out)) ∧
    Table.select ⟨"t", [("a", .INTEGER), ("b", .INTEGER)],
        [[("a", .vint 1), ("b", .vint 2)], [("a", .vint 1), ("b", .vint 1)],
         [("a", .vint 2), ("b", .vint 1)]]⟩ (some ["*"]) none
        (some [⟨"a", "ASC"⟩, ⟨"b", "DESC"⟩]) =
      .ok [[("a", .vint 1), ("b", .vint 2)], [("a", .vint 1), ("b", .vint 1)],
           [("a", .vint 2), ("b", .vint 1)]] := by
  constructor
  · intro t columns wh ob base hbase hne hkeys
    have hint := intKeyedB_spec hkeys
    have hap := applyOrderBy_eq_isort hint
    have hobne : ob.isEmpty = false := by
      cases ob with
      | nil => exact absurd rfl hne
      | cons a l => rfl
    have hnd : base.enum.Nodup := by
      rw [List.enum_eq_enumFrom]
      exact enumFrom_nodup base 0
    refine ⟨(isortPasses ob base.enum).map Prod.snd, ?_, ?_, ?_, ?_⟩
    · simp [Table.select, hbase, hobne, hap]
    · have h2 := (isortPasses_perm ob base.enum).map Prod.snd
      rw [List.enum_eq_enumFrom, List.enumFrom_map_snd] at h2
      exact h2
    · exact List.pairwise_map.mpr (isort_sorted_stable ob base.enum hnd).1
    · intro x y hxy htied
      rcases pair_sublist_enumFrom 0 hxy with ⟨px, py, hpx, hpy, hsub⟩
      have hstable := (isort_sorted_stable ob base.enum hnd).2 px py
        (by rw [List.enum_eq_enumFrom]; exact hsub)
        (by rw [hpx, hpy]; exact htied)
      have hmap := hstable.map Prod.snd
      rw [List.map_cons, List.map_cons, List.map_nil, hpx, hpy] at hmap
      exact hmap
  · show applyOrderBy [⟨"a", "ASC"⟩, ⟨"b", "DESC"⟩]
        [[("a", Value.vint 1), ("b", Value.vint 2)], [("a", Value.vint 1), ("b", Value.vint 1)],
         [("a", Value.vint 2), ("b", Value.vint 1)]] = _
    exact applyOrderBy_example

/-- C2 witness: the general statement applied to the spec's example. -/
theorem select_order_by_stable_lex_witness :
    ∃ out, Table.select ⟨"t", [("a", .INTEGER), ("b", .INTEGER)],
        [[("a", .vint 1), ("b", .vint 2)], [("a", .vint 1), ("b", .vint 1)],
         [("a", .vint 2), ("b", .vint 1)]]⟩ (some ["*"]) none
        (some [⟨"a", "ASC"⟩, ⟨"b", "DESC"⟩]) = .ok out ∧
      out.Perm [[("a", .vint 1), ("b", .vint 2)], [("a", .vint 1), ("b", .vint 1)],
        [("a", .vint 2), ("b", .vint 1)]] ∧
      List.Pairwise (fun x y => lexLeB [⟨"a", "ASC"⟩, ⟨"b", "DESC"⟩] x y = true) out ∧
      (∀ x y : Row, [x, y].Sublist
          [[("a", .vint 1), ("b", .vint 2)], [("a", .vint 1), ("b", .vint 1)],
           [("a", .vint 2), ("b", .vint 1)]] →
        tiedAllB [⟨"a", "ASC"⟩, ⟨"b", "DESC"⟩] x y = true → [x, y].Sublist out) := by
  exact select_order_by_stable_lex.1
    ⟨"t", [("a", .INTEGER), ("b", .INTEGER)],
      [[("a", .vint 1), ("b", .vint 2)], [("a", .vint 1), ("b", .vint 1)],
       [("a", .vint 2), ("b", .vint 1)]]⟩ (some ["*"]) none
    [⟨"a", "ASC"⟩, ⟨"b", "DESC"⟩]
    [[("a", .vint 1), ("b", .vint 2)], [("a", .vint 1), ("b", .vint 1)],
     [("a", .vint 2), ("b", .vint 1)]]
    (by decide) (List.cons_ne_nil _ _) (by decide)
